import Mathlib

/-!
Verification of the rusub subdomain enumerator (a Rust program) against its
natural-language specification.  Each Rust function relevant to the checked
claims is shallowly embedded as an executable Lean definition, translated
directly from the source files (`src/wildcard.rs`, `src/resolver_pool.rs`,
`src/ratelimit.rs`, `src/options.rs`, `src/discovery.rs`, `src/dns.rs`,
`src/state.rs`, `src/scanner.rs`).  Machine integers are modelled as `Nat`/`Int`
(with explicit wrap-around where the code can overflow), strings as Lean
strings or `List Char`, hash sets and hash maps as lists, and the effectful
orchestrator loop as a state-passing function over an explicit list of
per-attempt environment outcomes.
-/

namespace Rusub

/-! ## Generic helpers (byte strings, orders, sorting, digits) -/

/-- UTF-8 encoding of one character, as the list of its byte values.
Mirrors the byte sequence Rust sees for a `&str` (`String::as_bytes`). -/
def utf8Bytes (c : Char) : List ℕ :=
  let n := c.toNat
  if n < 128 then [n]
  else if n < 2048 then [192 + n / 64, 128 + n % 64]
  else if n < 65536 then [224 + n / 4096, 128 + (n / 64) % 64, 128 + n % 64]
  else [240 + n / 262144, 128 + (n / 4096) % 64, 128 + (n / 64) % 64, 128 + n % 64]

/-- Byte-string view of a Lean string: the UTF-8 bytes, as in Rust. -/
def strBytes (s : String) : List ℕ :=
  (s.data.map utf8Bytes).flatten

/-- Byte length of a string; this is what Rust's `str::len` returns. -/
def byteLen (s : String) : ℕ := (strBytes s).length

/-- Lexicographic order on character lists by code point; for ASCII data this
agrees with the byte order Rust's `Vec<String>::sort` uses. -/
def lexLe : List Char → List Char → Bool
  | [], _ => true
  | _ :: _, [] => false
  | a :: as, b :: bs =>
    if a.toNat < b.toNat then true
    else if b.toNat < a.toNat then false
    else lexLe as bs

/-- String order used to model `Vec<String>::sort`. -/
def strLeRel (a b : String) : Prop := lexLe a.data b.data = true

instance : DecidableRel strLeRel := fun a b => by
  unfold strLeRel; infer_instance

/-- Stable sort of strings; models Rust's (stable) `sort`. -/
def sortStr (l : List String) : List String := List.insertionSort strLeRel l

/-- Removal of consecutive duplicates; models Rust's `Vec::dedup`. -/
def dedupConsec : List String → List String
  | [] => []
  | [a] => [a]
  | a :: b :: rest =>
    if a = b then dedupConsec (b :: rest) else a :: dedupConsec (b :: rest)

/-- Model of the Rust idiom `v.sort(); v.dedup();`. -/
def sortDedup (l : List String) : List String := dedupConsec (sortStr l)

/-- ASCII digit test (Rust `char::is_ascii_digit`). -/
def isDigitC (c : Char) : Bool := decide (48 ≤ c.toNat ∧ c.toNat ≤ 57)

/-- ASCII whitespace test; models the whitespace trimming of `str::trim` for
the ASCII range (non-ASCII Unicode whitespace is out of scope here). -/
def isWsC (c : Char) : Bool := decide (c.toNat = 32 ∨ (9 ≤ c.toNat ∧ c.toNat ≤ 13))

/-- Model of `str::trim`: drop whitespace from both ends. -/
def trimChars (l : List Char) : List Char :=
  ((l.dropWhile isWsC).reverse.dropWhile isWsC).reverse

/-- ASCII lowercasing of one character (Rust `to_ascii_lowercase`). -/
def lowerChar (c : Char) : Char :=
  if 65 ≤ c.toNat ∧ c.toNat ≤ 90 then Char.ofNat (c.toNat + 32) else c

/-- Model of `str::ends_with`: `suf` is a suffix of `l`. -/
def endsWith (l suf : List Char) : Bool :=
  decide (suf.length ≤ l.length) && decide (l.drop (l.length - suf.length) = suf)

/-- Numeric value of a list of ASCII digits, most significant first. -/
def natVal (l : List Char) : ℕ := l.foldl (fun a c => 10 * a + (c.toNat - 48)) 0

/-- Character form of one decimal digit. -/
def digitChar : ℕ → Char
  | 0 => '0' | 1 => '1' | 2 => '2' | 3 => '3' | 4 => '4'
  | 5 => '5' | 6 => '6' | 7 => '7' | 8 => '8' | 9 => '9'
  | _ => '0'

/-- Decimal digit string of a natural number (used to state claims about
inputs of the form `"<n>pps"`). -/
def digitsOf (n : ℕ) : List Char :=
  if n = 0 then ['0'] else ((Nat.digits 10 n).map digitChar).reverse

/-! ## Wildcard detection (`src/wildcard.rs`) -/

/-- Embedding of `wildcard::is_wildcard`.  The `HashSet<String>` of wildcard
IPs is modelled as a list (membership is all the function uses). -/
def is_wildcard (answers : List String) (wild_ips : List String) : Bool :=
  if wild_ips.isEmpty then false
  else if answers.isEmpty then false
  else answers.all (fun a => wild_ips.contains a)

/-! ## Resolver pool (`src/resolver_pool.rs`)

Time (`std::time::Instant`) is modelled by a natural-number clock passed to
each operation; `ts.elapsed()` at clock value `now` is `now - ts`. -/

/-- Embedding of `ResolverInner` (atomics flattened to plain fields; all pool
mutation is serialized under locks in the source). -/
structure ResolverInner where
  addr : String
  ok : ℕ
  fail : ℕ
  disabled : Bool
  disabled_at : Option ℕ
deriving DecidableEq, Repr

/-- Embedding of `ResolverInner::new`. -/
def ResolverInner.new (addr : String) : ResolverInner :=
  { addr := addr, ok := 0, fail := 0, disabled := false, disabled_at := none }

/-- Embedding of `ResolverInner::should_disable`.  The source computes the
ratio test as `(fail as f64) / (total as f64) > 0.8`; for counter values below
`2 ^ 52` (all reachable ones) that f64 comparison coincides with the exact
rational comparison `5 * fail > 4 * total` used here. -/
def should_disable (r : ResolverInner) : Bool :=
  let total := r.ok + r.fail
  if 20 ≤ total then decide (5 * r.fail > 4 * total)
  else decide (10 ≤ r.fail ∧ r.ok = 0)

/-- Embedding of `ResolverInner::maybe_reenable`. -/
def maybe_reenable (now cooldown : ℕ) (r : ResolverInner) : ResolverInner :=
  if r.disabled then
    match r.disabled_at with
    | some ts =>
      if cooldown ≤ now - ts then
        { addr := r.addr, ok := 0, fail := 0, disabled := false, disabled_at := none }
      else r
    | none => r
  else r

/-- Embedding of the per-endpoint effect of `ResolverPool::report_ok` (the
pool looks the endpoint up by address and increments its `ok` counter; no
disable check is performed on this path). -/
def report_ok (r : ResolverInner) : ResolverInner :=
  { r with ok := r.ok + 1 }

/-- Embedding of the per-endpoint effect of `ResolverPool::report_fail`:
increment `fail`, then disable the endpoint if `should_disable` now holds,
recording the disable time (the optional callback is an observer only). -/
def report_fail (now : ℕ) (r : ResolverInner) : ResolverInner :=
  let r2 := { r with fail := r.fail + 1 }
  if should_disable r2 then
    { r2 with disabled := true, disabled_at := some now }
  else r2

/-- Embedding of `ResolverPool::counts`: re-enable cooled-down endpoints,
then report `(active, total)` together with the updated pool order. -/
def counts (now cooldown : ℕ) (order : List ResolverInner) :
    (ℕ × ℕ) × List ResolverInner :=
  let total := order.length
  let order2 := order.map (maybe_reenable now cooldown)
  let active := (order2.filter (fun r => !r.disabled)).length
  ((active, total), order2)

/-- Embedding of `ResolverPool::choose_random` up to the final uniformly
random pick: the list of addresses the random choice draws from (the source
returns `None` exactly when this list is empty), with the updated pool. -/
def choose_random_candidates (now cooldown : ℕ) (order : List ResolverInner) :
    List String × List ResolverInner :=
  let order2 := order.map (maybe_reenable now cooldown)
  ((order2.filter (fun r => !r.disabled)).map (fun r => r.addr), order2)

/-! ## Rate limiter (`src/ratelimit.rs`) -/

/-- Embedding of `RateLimiter`: the stored rate (an `AtomicI64`) and the
number of currently available semaphore permits. -/
structure RateLimiter where
  rate : ℤ
  permits : ℕ
deriving DecidableEq, Repr

/-- Embedding of `RateLimiter::new`: clamp the rate at zero and start with an
empty semaphore (the source comment: avoid a cold-start burst). -/
def RateLimiter.new (rate : ℤ) : RateLimiter :=
  { rate := max rate 0, permits := 0 }

/-- Embedding of one tick of the refill task spawned by `spawn_refill`:
add `max (rate - available) 0` permits. -/
def refillTick (rl : RateLimiter) : RateLimiter :=
  let to_add := max (rl.rate - (rl.permits : ℤ)) 0
  { rl with permits := rl.permits + to_add.toNat }

/-- A semaphore `acquire` can complete exactly when a permit is available;
otherwise the caller blocks until a refill provides one. -/
def canAcquire (rl : RateLimiter) : Bool := decide (0 < rl.permits)

/-! ## Bandwidth parser (`src/options.rs`, `band2rate`)

All numeric values are exact: a parsed number is kept as a fraction
`num / den` with positive denominator, `f64` multiplication and division
become exact fraction arithmetic, and `f64::floor` followed by `as i64`
becomes `Int.fdiv` (floor division).  This coincides with the Rust
computation whenever the magnitudes stay below `2 ^ 53`, which covers every
value the claims quantify over; `f64` rounding at larger magnitudes and the
non-finite literals `inf`/`nan` accepted by `f64::from_str` are out of scope. -/

/-- Exact fraction: value is `num / den`, `den` positive by construction. -/
structure Frac where
  num : ℤ
  den : ℕ
deriving DecidableEq, Repr

/-- Floor of `v * mult / d` for a parsed value `v`; this models the source's
`(v * mult / d).floor() as i64` chains. -/
def scaleDiv (v : Frac) (mult d : ℕ) : ℤ :=
  Int.fdiv (v.num * mult) ((v.den * d : ℕ) : ℤ)

/-- Optional leading sign of a numeric literal. -/
def stripSign : List Char → Bool × List Char
  | [] => (false, [])
  | c :: cs =>
    if c = '-' then (true, cs)
    else if c = '+' then (false, cs)
    else (false, c :: cs)

/-- Exponent part of a float literal: optional sign, then mandatory digits. -/
def applyExp (m : Frac) (l : List Char) : Option Frac :=
  let (negE, d) := stripSign l
  if d.isEmpty then none
  else if d.all isDigitC then
    some (if negE then { num := m.num, den := m.den * 10 ^ natVal d }
          else { num := m.num * 10 ^ natVal d, den := m.den })
  else none

/-- Model of `str::parse::<f64>()` on plain decimal literals
(sign, digits, optional fraction, optional exponent), with the exact
rational value. -/
def parseF64 (l : List Char) : Option Frac :=
  let (neg, l1) := stripSign l
  let ip := l1.takeWhile isDigitC
  let r1 := l1.dropWhile isDigitC
  let signed : ℤ → ℤ := fun z => if neg then -z else z
  match r1 with
  | [] =>
    if ip.isEmpty then none else some { num := signed (natVal ip), den := 1 }
  | c :: r2 =>
    if c = '.' then
      let fp := r2.takeWhile isDigitC
      let r3 := r2.dropWhile isDigitC
      if ip.isEmpty && fp.isEmpty then none
      else
        let mant : Frac :=
          { num := signed (natVal ip * 10 ^ fp.length + natVal fp), den := 10 ^ fp.length }
        match r3 with
        | [] => some mant
        | e :: r4 => if e = 'e' ∨ e = 'E' then applyExp mant r4 else none
    else if c = 'e' ∨ c = 'E' then
      if ip.isEmpty then none else applyExp { num := signed (natVal ip), den := 1 } r2
    else none

/-- Embedding of the `parse_num` closure inside `band2rate`: trim, parse as
`f64`, and reject values `≤ 0`. -/
def parse_num (txt : List Char) : Except Unit Frac :=
  match parseF64 (trimChars txt) with
  | none => .error ()
  | some v => if v.num ≤ 0 then .error () else .ok v

/-- Embedding of `band2rate`'s final case: a pure ASCII-digit string parsed
as a raw `i64` pps value (`raw.max(0)`); `i64::from_str` fails on the empty
string and on overflow. -/
def pureNumberCase (lower : List Char) : Except Unit ℤ :=
  if lower.all isDigitC then
    if lower.isEmpty then .error ()
    else if natVal lower ≤ 2 ^ 63 - 1 then .ok (max ((natVal lower : ℤ)) 0)
    else .error ()
  else .error ()

/-- Embedding of `band2rate`'s legacy `K`/`M`/`G` suffix case followed by the
pure-number case. -/
def legacySuffixCase (lower : List Char) : Except Unit ℤ :=
  match lower.getLast? with
  | some c =>
    if c = 'g' ∨ c = 'm' ∨ c = 'k' then
      let mult : ℕ := if c = 'g' then 1000000000 else if c = 'm' then 1000000 else 1000
      match parse_num (lower.take (lower.length - 1)) with
      | .error e => .error e
      | .ok v =>
        let pps := scaleDiv v mult 640
        if pps ≤ 0 then .error () else .ok pps
    else pureNumberCase lower
  | none => pureNumberCase lower

/-- Suffix dispatch of `band2rate` on the lowercased, trimmed input
(the source's `lower` variable).  `DNS_PACKET_BITS = 80 * 8 = 640`. -/
def band2rateLower (lower : List Char) : Except Unit ℤ :=
  if endsWith lower ("kbps".data) then
    match parse_num (lower.take (lower.length - 4)) with
    | .error e => .error e
    | .ok v => .ok (scaleDiv v 1000 640)
  else if endsWith lower ("mbps".data) then
    match parse_num (lower.take (lower.length - 4)) with
    | .error e => .error e
    | .ok v => .ok (scaleDiv v 1000000 640)
  else if endsWith lower ("gbps".data) then
    match parse_num (lower.take (lower.length - 4)) with
    | .error e => .error e
    | .ok v => .ok (scaleDiv v 1000000000 640)
  else if endsWith lower ("bps".data) then
    match parse_num (lower.take (lower.length - 3)) with
    | .error e => .error e
    | .ok v => .ok (scaleDiv v 1 640)
  else if endsWith lower ("kpps".data) then
    match parse_num (lower.take (lower.length - 4)) with
    | .error e => .error e
    | .ok v => .ok (scaleDiv v 1000 1)
  else if endsWith lower ("mpps".data) then
    match parse_num (lower.take (lower.length - 4)) with
    | .error e => .error e
    | .ok v => .ok (scaleDiv v 1000000 1)
  else if endsWith lower ("gpps".data) then
    match parse_num (lower.take (lower.length - 4)) with
    | .error e => .error e
    | .ok v => .ok (scaleDiv v 1000000000 1)
  else if endsWith lower ("pps".data) then
    match parse_num (lower.take (lower.length - 3)) with
    | .error e => .error e
    | .ok v => .ok (scaleDiv v 1 1)
  else legacySuffixCase lower

/-- Embedding of `options::band2rate`: reject the empty string, trim,
lowercase, then dispatch on the suffix. -/
def band2rate (band : List Char) : Except Unit ℤ :=
  if band.isEmpty then .error () else
  if (trimChars band).isEmpty then .error () else
  band2rateLower ((trimChars band).map lowerChar)

/-! ## Candidate predictor (`src/discovery.rs`) -/

/-- First DNS label of a host: `d.split('.').next()`. -/
def firstLabel (s : String) : String :=
  String.mk (s.data.takeWhile (fun c => !(decide (c = '.'))))

/-- Qualifying first labels of the discovered hosts: byte length in `[3, 32]`
(Rust `str::len` is byte length).  This is the multiset the frequency map of
`dynamic_extend` is built from. -/
def qualLabels (discovered : List String) : List String :=
  (discovered.map firstLabel).filter
    (fun l => decide (3 ≤ byteLen l) && decide (byteLen l ≤ 32))

/-- Content of the frequency `HashMap` of `dynamic_extend`, listed in the
iteration order `mapOrder`.  A Rust `HashMap`'s iteration order is not a
function of its content (the hasher is randomly seeded per map), so the order
is an explicit parameter: `mapOrder` positions the distinct qualifying labels,
and each carries its occurrence count. -/
def freqItems (discovered : List String) (mapOrder : List String) :
    List (String × ℕ) :=
  (mapOrder.dedup.filter (fun l => decide (l ∈ qualLabels discovered))).map
    (fun l => (l, (qualLabels discovered).count l))

/-- The fixed `common` service-token array of `dynamic_extend`, verbatim
(including the duplicated `"download"`). -/
def commonTokens : List String :=
  ["edge", "gateway", "console", "dashboard", "service", "node", "cluster",
   "download", "update", "images",
   "assets", "files", "pkg", "pkgcdn", "client", "backend", "front", "portal",
   "account", "user", "auth",
   "oauth", "sso", "pay", "payment", "order", "trade", "shop", "store", "cart",
   "data", "db", "cache",
   "redis", "mysql", "pgsql", "elasticsearch", "search", "kibana", "grafana",
   "monitor", "metrics", "status",
   "health", "log", "logs", "logging", "report", "analytics", "stat", "stats",
   "event", "events", "message",
   "msg", "queue", "mq", "rabbit", "kafka", "upload", "dl", "download", "api2",
   "api3", "mobile", "wap",
   "h5", "web", "webapp", "mini", "miniapp", "internal", "intra", "secure",
   "sec", "security", "scan", "scanner"]

/-- Descending-count order used by `items.sort_by(|a, b| b.1.cmp(&a.1))`. -/
def countGe (a b : String × ℕ) : Prop := b.2 ≤ a.2

instance : DecidableRel countGe := fun a b => by
  unfold countGe; infer_instance

/-- Embedding of `discovery::dynamic_extend`.  `mapOrder` models the iteration
order of the internal frequency `HashMap` (see `freqItems`); everything else
is a direct translation: stable sort by descending count, take the first
`top_n`, drop entries present in `base`, append the common service tokens not
in `base`, then `sort(); dedup();`. -/
def dynamic_extend (discovered base : List String) (top_n : ℕ)
    (mapOrder : List String) : List String :=
  let items := List.insertionSort countGe (freqItems discovered mapOrder)
  let picked :=
    ((items.take top_n).filter (fun p => !(base.contains p.1))).map Prod.fst
  let withCommon := picked ++ commonTokens.filter (fun c => !(base.contains c))
  sortDedup withCommon

/-! ## DNS queries (`src/dns.rs`)

Network I/O is modelled by an environment outcome per sub-query: either the
pre-receive steps (`build_query`, socket bind, `send_to`) or the response
parse (`Message::from_bytes`) fail with a propagated error, or the socket
`recv` fails (timeout), or a response message is decoded into its rcode
string and the answer records of known types. -/

/-- Embedding of `RawRecord`. -/
structure RawRecord where
  rtype : String
  data : String
deriving DecidableEq, Repr

/-- Embedding of `DnsAnswer`. -/
structure DnsAnswer where
  records : List RawRecord
  rcode : String
deriving DecidableEq, Repr

/-- Environment outcome of one UDP sub-query. -/
inductive RecvOutcome where
  | ioErr
  | recvErr
  | msg (rcode : String) (records : List RawRecord)
deriving DecidableEq, Repr

/-- Embedding of the `send_and_parse` helper inside `udp_query_full`:
a `recv` failure becomes `Ok(([], "TIMEOUT"))`; an I/O or parse failure
propagates as an error; a decoded message yields its records and rcode. -/
def send_and_parse : RecvOutcome → Except Unit (List RawRecord × String)
  | .ioErr => .error ()
  | .recvErr => .ok ([], "TIMEOUT")
  | .msg rcode records => .ok (records, rcode)

/-- Record-type test used throughout `udp_query_full`. -/
def isIpRecord (r : RawRecord) : Bool := r.rtype = "A" || r.rtype = "AAAA"

/-- Embedding of `dns::udp_query_full` over the outcomes of its three
possible sub-queries (A, then AAAA if no IP yet, then one CNAME chase if
still no IP and the A answer held a CNAME). -/
def udp_query_full (envA envAAAA envCNAME : RecvOutcome) :
    Except Unit DnsAnswer :=
  match send_and_parse envA with
  | .error e => .error e
  | .ok (records0, rcode_a) =>
    let has_ip := records0.any isIpRecord
    let cname_target :=
      (records0.find? (fun r => r.rtype = "CNAME")).map (fun r => r.data)
    let step2 : Except Unit (List RawRecord) :=
      if has_ip then .ok records0
      else
        match send_and_parse envAAAA with
        | .error e => .error e
        | .ok (rec_aaaa, _) =>
          .ok (if rec_aaaa.isEmpty then records0 else records0 ++ rec_aaaa)
    match step2 with
    | .error e => .error e
    | .ok records1 =>
      let has_ip_now := records1.any isIpRecord
      let records2 :=
        if has_ip_now then records1
        else
          match cname_target with
          | some _ =>
            match send_and_parse envCNAME with
            | .ok (rec_cname, _) =>
              if rec_cname.isEmpty then records1 else records1 ++ rec_cname
            | .error _ => records1
          | none => records1
      .ok { records := records2, rcode := rcode_a }

/-! ## State store (`src/state.rs`) -/

/-- Embedding of `EntryState`. -/
inductive EntryState where
  | Ok
  | WildFiltered
  | Failed
deriving DecidableEq, Repr

/-- Embedding of `Item`; `SystemTime` is modelled as seconds since the epoch. -/
structure Item where
  domain : String
  dns : String
  time : ℕ
  retry : ℤ
  domain_level : ℤ
  state : EntryState
deriving DecidableEq, Repr

/-- FNV-1a 64-bit hash over a byte list, exactly as the `fnv` crate's
`FnvHasher` computes it (wrapping 64-bit arithmetic made explicit). -/
def fnv1a (bs : List ℕ) : ℕ :=
  bs.foldl (fun h b => ((h ^^^ b) * 1099511628211) % 2 ^ 64) 14695981039346656037

/-- Embedding of `StatusDb::get_shard`'s index computation:
`FnvHasher` over the host's UTF-8 bytes, modulo the shard count 64. -/
def shardIdx (domain : String) : Fin 64 :=
  ⟨fnv1a (strBytes domain) % 64, Nat.mod_lt _ (by decide)⟩

/-- Embedding of `StatusDb`: 64 shards (each a map modelled as an association
list) and the global length counter (`AtomicI64`). -/
structure StatusDb where
  shards : Fin 64 → List (String × Item)
  length : ℤ

/-- Embedding of `StatusDb::create_memory_db` (the background sweeper task is
not part of the modelled operations). -/
def create_memory_db : StatusDb := { shards := fun _ => [], length := 0 }

/-- Key-presence test on one shard (`HashMap::contains_key`). -/
def shardContains (m : List (String × Item)) (k : String) : Bool :=
  m.any (fun p => p.1 = k)

/-- Embedding of `HashMap::insert` on one shard: replace the entry for an
existing key, otherwise add a fresh entry. -/
def shardInsert (m : List (String × Item)) (k : String) (it : Item) :
    List (String × Item) :=
  if shardContains m k then m.map (fun p => if p.1 = k then (k, it) else p)
  else (k, it) :: m

/-- Embedding of `HashMap::remove` on one shard. -/
def shardRemove (m : List (String × Item)) (k : String) : List (String × Item) :=
  m.filter (fun p => !(decide (p.1 = k)))

/-- Embedding of `StatusDb::add`: insert into the key's shard and increment
the global length only when the key was absent. -/
def StatusDb.add (db : StatusDb) (domain : String) (it : Item) : StatusDb :=
  let i := shardIdx domain
  let m := db.shards i
  if shardContains m domain then
    { db with shards := Function.update db.shards i (shardInsert m domain it) }
  else
    { shards := Function.update db.shards i (shardInsert m domain it),
      length := db.length + 1 }

/-- Embedding of `StatusDb::set`; the source body is identical to `add`. -/
def StatusDb.set (db : StatusDb) (domain : String) (it : Item) : StatusDb :=
  let i := shardIdx domain
  let m := db.shards i
  if shardContains m domain then
    { db with shards := Function.update db.shards i (shardInsert m domain it) }
  else
    { shards := Function.update db.shards i (shardInsert m domain it),
      length := db.length + 1 }

/-- Embedding of `StatusDb::del`: remove from the key's shard and decrement
the global length only when the key was present. -/
def StatusDb.del (db : StatusDb) (domain : String) : StatusDb :=
  let i := shardIdx domain
  let m := db.shards i
  if shardContains m domain then
    { shards := Function.update db.shards i (shardRemove m domain),
      length := db.length - 1 }
  else db

/-- Embedding of `StatusDb::get`. -/
def StatusDb.get (db : StatusDb) (domain : String) : Option Item :=
  ((db.shards (shardIdx domain)).find? (fun p => p.1 = domain)).map (fun p => p.2)

/-- One mutating StatusDb operation. -/
inductive DbOp where
  | add (k : String) (it : Item)
  | set (k : String) (it : Item)
  | del (k : String)

/-- Apply one operation. -/
def applyOp (db : StatusDb) : DbOp → StatusDb
  | .add k it => db.add k it
  | .set k it => db.set k it
  | .del k => db.del k

/-- Run a sequence of operations from the empty store. -/
def runOps (ops : List DbOp) : StatusDb :=
  ops.foldl applyOp create_memory_db

/-- All keys currently present, shard by shard. -/
def keysOf (db : StatusDb) : List String :=
  ((List.finRange 64).map (fun i => (db.shards i).map Prod.fst)).flatten

/-- Number of distinct keys present across all shards. -/
def distinctCount (db : StatusDb) : ℕ := (keysOf db).dedup.length

/-- Structural invariant of the sharded store: each shard's key list is
duplicate-free, every entry sits in the shard its key hashes to, and the
global length counter equals the total entry count over the shards. -/
def DbInv (db : StatusDb) : Prop :=
  (∀ i : Fin 64, ((db.shards i).map Prod.fst).Nodup) ∧
  (∀ i : Fin 64, ∀ p ∈ db.shards i, shardIdx p.1 = i) ∧
  db.length = ((List.finRange 64).map (fun i => ((db.shards i).length : ℤ))).sum

/-- Embedding of `string_to_state` (persistence layer): any string other than
`"Ok"` and `"WildFiltered"` maps to `Failed`. -/
def string_to_state (s : String) : EntryState :=
  if s = "Ok" then .Ok
  else if s = "WildFiltered" then .WildFiltered
  else .Failed

/-- Embedding of the persisted JSON entry `PersistItem`. -/
structure PersistItem where
  domain : String
  dns : String
  retry : ℤ
  domain_level : ℤ
  state : String
  ts_sec : ℕ
deriving DecidableEq, Repr

/-- In-memory `Item` built by `load_from_file` for one persisted entry. -/
def loadItem (p : PersistItem) : Item :=
  { domain := p.domain, dns := p.dns, time := p.ts_sec, retry := p.retry,
    domain_level := p.domain_level, state := string_to_state p.state }

/-- Embedding of `state::load_from_file` after JSON decoding: add every
persisted entry to the store and return the count of loaded entries. -/
def load_from_file (db : StatusDb) (list : List PersistItem) : StatusDb × ℕ :=
  (list.foldl (fun acc p => acc.add p.domain (loadItem p)) db, list.length)

/-! ## Scan orchestrator, per-host task (`src/scanner.rs`, base pass)

The per-host retry loop of `scanner::run` is embedded as a state-passing
function over a list of per-attempt environment outcomes (resolver choice and
query result).  The predictor-round copy of the loop differs only in not
writing a `Failed` StatusDb entry on an empty `NoError` answer; the claims
cite the base-pass loop, which is what is modelled.  Token acquisition on the
rate limiter is a pure suspension point (see `RateLimiter` for its separate
model) and StatusDb writes are recorded as a list of written states. -/

/-- Relevant options of the per-host task. -/
structure ScanCfg where
  retry : ℤ
  not_print : Bool
  only_alive : Bool
  wild : List String
deriving DecidableEq, Repr

/-- Environment outcome of one attempt: a decoded answer from a chosen
resolver, a timeout or join error from a chosen resolver, or no resolver
available (with the system-resolver fallback result). -/
inductive AttemptOutcome where
  | answer (resolver : String) (rcode : String) (records : List RawRecord)
  | timeoutOrErr (resolver : String)
  | noResolver (sys : Option (List String))
deriving DecidableEq, Repr

/-- Embedding of the metrics counters the per-host task touches. -/
structure Metrics where
  sent : ℕ
  ok : ℕ
  filtered : ℕ
  failed : ℕ
  skipped : ℕ
  nxdomain : ℕ
  servfail : ℕ
  refused : ℕ
  timeouts : ℕ
  fallback : ℕ
deriving DecidableEq, Repr

/-- All-zero counters. -/
def Metrics.zero : Metrics :=
  { sent := 0, ok := 0, filtered := 0, failed := 0, skipped := 0,
    nxdomain := 0, servfail := 0, refused := 0, timeouts := 0, fallback := 0 }

/-- Resolver-pool report issued by the task. -/
inductive PoolEvent where
  | reportOk (addr : String)
  | reportFail (addr : String)
deriving DecidableEq, Repr

/-- State threaded through one host task: counters, pool reports, emitted
`ScanResult` answer lists, StatusDb states written, the attempt counter and
the `success` flag. -/
structure HostSt where
  metrics : Metrics
  events : List PoolEvent
  emitted : List (List String)
  dbWrites : List EntryState
  attempt : ℤ
  success : Bool
deriving DecidableEq, Repr

/-- Initial task state. -/
def HostSt.init : HostSt :=
  { metrics := Metrics.zero, events := [], emitted := [], dbWrites := [],
    attempt := 0, success := false }

/-- Embedding of the rcode classification `match` at the top of the
response-handling branch: bump the matching counter and report whether the
rcode was penalized. -/
def classifyRcode (rcode : String) (m : Metrics) : Metrics × Bool :=
  if rcode = "NXDomain" then ({ m with nxdomain := m.nxdomain + 1 }, false)
  else if rcode = "ServFail" then ({ m with servfail := m.servfail + 1 }, true)
  else if rcode = "Refused" then ({ m with refused := m.refused + 1 }, true)
  else if rcode = "TIMEOUT" then ({ m with timeouts := m.timeouts + 1 }, true)
  else (m, false)

/-- IP extraction from the answer records: keep A/AAAA data, then
`sort(); dedup();`. -/
def extractIps (records : List RawRecord) : List String :=
  sortDedup ((records.filter isIpRecord).map (fun r => r.data))

/-- Embedding of the `while` condition of the retry loop:
`opt.retry < 0 || attempt <= opt.retry || (smart_protect && attempt < 2)`
where `smart_protect = (opt.retry == 0)`. -/
def loopCond (cfg : ScanCfg) (attempt : ℤ) : Bool :=
  decide (cfg.retry < 0) || decide (attempt ≤ cfg.retry) ||
    (decide (cfg.retry = 0) && decide (attempt < 2))

/-- One iteration of the loop body up to (not including) the bottom-of-loop
retry check: increments the attempt counter and `sent`, consumes the
attempt's environment outcome, and returns the new state together with
`true` when the body executed a `break`. -/
def stepBody (cfg : ScanCfg) (e : AttemptOutcome) (st : HostSt) : HostSt × Bool :=
  let st := { st with attempt := st.attempt + 1 }
  let st := { st with metrics := { st.metrics with sent := st.metrics.sent + 1 } }
  match e with
  | .answer resolver rcode records =>
    match classifyRcode rcode st.metrics with
    | (m2, penalized) =>
    let st := { st with metrics := m2 }
    let st :=
      if penalized then { st with events := st.events ++ [.reportFail resolver] }
      else st
    if rcode = "NXDomain" then ({ st with success := false }, true)
    else if !records.isEmpty then
      let ips := extractIps records
      if !is_wildcard ips cfg.wild then
        ({ st with
            metrics := { st.metrics with ok := st.metrics.ok + 1 },
            emitted := st.emitted ++ [ips],
            dbWrites := st.dbWrites ++ [.Ok],
            events := st.events ++ [.reportOk resolver],
            success := true }, true)
      else
        ({ st with
            metrics := { st.metrics with filtered := st.metrics.filtered + 1 },
            dbWrites := st.dbWrites ++ [.WildFiltered] }, true)
    else
      let st :=
        if !penalized then { st with events := st.events ++ [.reportFail resolver] }
        else st
      ({ st with dbWrites := st.dbWrites ++ [.Failed] }, false)
  | .timeoutOrErr resolver =>
    ({ st with events := st.events ++ [.reportFail resolver] }, false)
  | .noResolver sys =>
    let st := { st with metrics := { st.metrics with fallback := st.metrics.fallback + 1 } }
    match sys with
    | some ips0 =>
      ({ st with
          emitted := st.emitted ++ [sortDedup ips0],
          dbWrites := st.dbWrites ++ [.Ok],
          success := true }, true)
    | none => (st, false)

/-- The retry loop: check the `while` condition, run the body on the next
environment outcome, apply the bottom-of-loop retry check, repeat.  The
second component is `true` when the loop exited by itself (condition false or
`break`) and `false` when the supplied outcome list was exhausted while the
loop would have continued (the run is observed mid-loop). -/
def runLoop (cfg : ScanCfg) : List AttemptOutcome → HostSt → HostSt × Bool
  | [], st => if loopCond cfg st.attempt then (st, false) else (st, true)
  | e :: rest, st =>
    if loopCond cfg st.attempt then
      match stepBody cfg e st with
      | (st2, true) => (st2, true)
      | (st2, false) =>
        if cfg.retry ≥ 0 ∧ st2.attempt > cfg.retry then
          if cfg.retry = 0 ∧ st2.attempt = 1 then runLoop cfg rest st2
          else (st2, true)
        else runLoop cfg rest st2
    else (st, true)

/-- Start-of-task StatusDb cache check: skip when the cached entry is
terminal (`Ok` or `WildFiltered`). -/
def hostSkip (cached : Option EntryState) : Bool :=
  match cached with
  | some s => decide (s = EntryState.Ok) || decide (s = EntryState.WildFiltered)
  | none => false

/-- Embedding of one per-host task of the base pass: the StatusDb cache
check (skip terminal `Ok`/`WildFiltered` entries), the retry loop, and the
terminal `!success && show_all` branch that emits an empty result, bumps
`failed` and writes a `Failed` state.  `show_all = !not_print && !only_alive`. -/
def runHost (cfg : ScanCfg) (cached : Option EntryState)
    (envs : List AttemptOutcome) : HostSt × Bool :=
  if hostSkip cached then
    ({ HostSt.init with
        metrics := { Metrics.zero with skipped := 1 } }, true)
  else
    let res := runLoop cfg envs HostSt.init
    let show_all := !cfg.not_print && !cfg.only_alive
    if res.2 ∧ ¬res.1.success ∧ show_all = true then
      ({ res.1 with
          metrics := { res.1.metrics with failed := res.1.metrics.failed + 1 },
          emitted := res.1.emitted ++ [[]],
          dbWrites := res.1.dbWrites ++ [.Failed] }, true)
    else res

/-! ## Theorems -/

deriving instance DecidableEq for Except

/-- C2: `is_wildcard(answers, W)` is true iff `W` is non-empty, `answers` is
non-empty and every answer is a member of `W`; in particular it is false on an
empty answer list and false on an empty wildcard set. -/
theorem is_wildcard_iff (answers wild_ips : List String) :
    (is_wildcard answers wild_ips = true ↔
      (wild_ips ≠ [] ∧ answers ≠ [] ∧ ∀ a ∈ answers, a ∈ wild_ips)) ∧
    is_wildcard [] wild_ips = false ∧
    is_wildcard answers [] = false := by
  refine ⟨?_, ?_, ?_⟩
  · unfold is_wildcard
    rcases wild_ips with _ | ⟨w, ws⟩ <;> rcases answers with _ | ⟨a, as⟩ <;>
      simp [List.all_eq_true]
  · unfold is_wildcard
    rcases wild_ips with _ | ⟨w, ws⟩ <;> simp
  · unfold is_wildcard
    simp

/-- C2 witness: a concrete instance of the characterization. -/
theorem is_wildcard_iff_witness :
    is_wildcard ["1.2.3.4"] ["1.2.3.4", "5.6.7.8"] = true :=
  (is_wildcard_iff ["1.2.3.4"] ["1.2.3.4", "5.6.7.8"]).1.mpr
    ⟨by decide, by decide, by decide⟩

/-- C6: with configured rate `R = 0` the limiter is not bypassed but starved:
the semaphore starts empty, every refill tick adds
`max (0 - available) 0 = 0` permits, so after any number of ticks no permit
is available and a host task's `acquire` before sending a query can never
complete. -/
theorem rate_zero_limiter_starved :
    (RateLimiter.new 0).permits = 0 ∧
    (∀ k : ℕ, refillTick^[k] (RateLimiter.new 0) = RateLimiter.new 0) ∧
    (∀ k : ℕ, canAcquire (refillTick^[k] (RateLimiter.new 0)) = false) := by
  have hfix : refillTick (RateLimiter.new 0) = RateLimiter.new 0 := by
    simp [refillTick, RateLimiter.new]
  have hiter : ∀ k : ℕ, refillTick^[k] (RateLimiter.new 0) = RateLimiter.new 0 :=
    fun k => Function.iterate_fixed hfix k
  refine ⟨rfl, hiter, fun k => ?_⟩
  rw [hiter k]
  decide

/-- C9 counterexample: when the initial A query's `recv` fails (rcode
`"TIMEOUT"`) but the AAAA fallback query succeeds with records,
`udp_query_full` returns rcode `"TIMEOUT"` together with a non-empty record
list, contradicting `rcode = Timeout → records = []`. -/
theorem udp_query_full_timeout_cex :
    udp_query_full RecvOutcome.recvErr
        (RecvOutcome.msg "NoError" [{ rtype := "AAAA", data := "2001:db8::1" }])
        RecvOutcome.recvErr =
      Except.ok { records := [{ rtype := "AAAA", data := "2001:db8::1" }],
                  rcode := "TIMEOUT" } ∧
    ¬ ([({ rtype := "AAAA", data := "2001:db8::1" } : RawRecord)] = []) := by
  decide

/-- C9 (amended): a failed `recv` is mapped by `send_and_parse` to
`Ok(([], "TIMEOUT"))` (never a propagated I/O error) and `udp_query_full`'s
rcode is the A query's; when the A `recv` fails, the returned records are
exactly those of the fallback AAAA sub-query — empty when that `recv` also
fails, but possibly non-empty when it succeeds. -/
theorem udp_query_full_timeout_amended :
    (send_and_parse RecvOutcome.recvErr = Except.ok ([], "TIMEOUT")) ∧
    (∀ envC, udp_query_full RecvOutcome.recvErr RecvOutcome.recvErr envC =
      Except.ok { records := [], rcode := "TIMEOUT" }) ∧
    (∀ (rc : String) (recs : List RawRecord) (envC : RecvOutcome),
      udp_query_full RecvOutcome.recvErr (RecvOutcome.msg rc recs) envC =
        Except.ok { records := recs, rcode := "TIMEOUT" }) := by
  refine ⟨rfl, fun envC => rfl, fun rc recs envC => ?_⟩
  cases recs with
  | nil => rfl
  | cons a l => simp [udp_query_full, send_and_parse]

/-- C4: for a disabled endpoint whose cooldown has elapsed
(`disabled_at + cooldown ≤ now`), the re-enable pass run by `choose_random`
and `counts` resets its counters to zero and clears the disabled flag; hence
when every endpoint's cooldown has elapsed, `counts` reports
`active = total`. -/
theorem resolver_cooldown_reenable :
    (∀ (now cooldown : ℕ) (r : ResolverInner) (ts : ℕ),
      r.disabled = true → r.disabled_at = some ts → ts + cooldown ≤ now →
      maybe_reenable now cooldown r =
        { addr := r.addr, ok := 0, fail := 0, disabled := false,
          disabled_at := none }) ∧
    (∀ (now cooldown : ℕ) (order : List ResolverInner),
      (∀ r ∈ order, r.disabled = true →
        ∃ ts, r.disabled_at = some ts ∧ ts + cooldown ≤ now) →
      (counts now cooldown order).1.1 = (counts now cooldown order).1.2 ∧
      (choose_random_candidates now cooldown order).1 =
        order.map (fun r => r.addr)) := by
  have hre : ∀ (now cooldown : ℕ) (r : ResolverInner) (ts : ℕ),
      r.disabled = true → r.disabled_at = some ts → ts + cooldown ≤ now →
      maybe_reenable now cooldown r =
        { addr := r.addr, ok := 0, fail := 0, disabled := false,
          disabled_at := none } := by
    intro now cooldown r ts hd ha hle
    unfold maybe_reenable
    rw [hd, ha]
    simp only [if_true]
    rw [if_pos (by omega)]
  have hoff : ∀ (now cooldown : ℕ) (r : ResolverInner),
      (r.disabled = true → ∃ ts, r.disabled_at = some ts ∧ ts + cooldown ≤ now) →
      (maybe_reenable now cooldown r).disabled = false ∧
      (maybe_reenable now cooldown r).addr = r.addr := by
    intro now cooldown r h
    by_cases hd : r.disabled = true
    · obtain ⟨ts, ha, hle⟩ := h hd
      rw [hre now cooldown r ts hd ha hle]
      exact ⟨rfl, rfl⟩
    · unfold maybe_reenable
      rw [if_neg hd]
      exact ⟨Bool.eq_false_iff.mpr hd, rfl⟩
  refine ⟨hre, fun now cooldown order h => ?_⟩
  have hfilter :
      (order.map (maybe_reenable now cooldown)).filter (fun r => !r.disabled) =
        order.map (maybe_reenable now cooldown) := by
    apply List.filter_eq_self.mpr
    intro r hr
    obtain ⟨r0, hr0, rfl⟩ := List.mem_map.mp hr
    have := (hoff now cooldown r0 (h r0 hr0)).1
    simp [this]
  constructor
  · show ((order.map (maybe_reenable now cooldown)).filter
        (fun r => !r.disabled)).length = order.length
    rw [hfilter, List.length_map]
  · show ((order.map (maybe_reenable now cooldown)).filter
        (fun r => !r.disabled)).map (fun r => r.addr) = order.map (fun r => r.addr)
    rw [hfilter, List.map_map]
    apply List.map_congr_left
    intro r0 hr0
    exact (hoff now cooldown r0 (h r0 hr0)).2

/-- C4 witness: one disabled endpoint (disabled at time 0, cooldown 10,
observed at time 100) is reset by the re-enable pass and `counts` reports
`active = total = 1`. -/
theorem resolver_cooldown_reenable_witness :
    maybe_reenable 100 10
        { addr := "1.1.1.1", ok := 3, fail := 9, disabled := true,
          disabled_at := some 0 } =
      { addr := "1.1.1.1", ok := 0, fail := 0, disabled := false,
        disabled_at := none } ∧
    (counts 100 10
        [{ addr := "1.1.1.1", ok := 3, fail := 9, disabled := true,
           disabled_at := some 0 }]).1.1 =
      (counts 100 10
        [{ addr := "1.1.1.1", ok := 3, fail := 9, disabled := true,
           disabled_at := some 0 }]).1.2 := by
  constructor
  · exact resolver_cooldown_reenable.1 100 10
      { addr := "1.1.1.1", ok := 3, fail := 9, disabled := true,
        disabled_at := some 0 } 0 rfl rfl (by decide)
  · exact (resolver_cooldown_reenable.2 100 10
      [{ addr := "1.1.1.1", ok := 3, fail := 9, disabled := true,
         disabled_at := some 0 }]
      (by
        intro r hr hd
        rcases List.mem_singleton.mp hr with rfl
        exact ⟨0, rfl, by decide⟩)).1

/-- C3 counterexample: after the report sequence ok, ok, 17 × fail, ok the
endpoint's counters satisfy the health condition (total = 20,
fail / total = 0.85 > 0.8) yet the endpoint is not disabled, and the next
`counts` and `choose_random` still see it active: only `report_fail` ever
disables, and the final `report_ok` is what pushed the counters over the
threshold. -/
theorem resolver_disable_cex :
    should_disable (report_ok ((report_fail 0)^[17]
        (report_ok (report_ok (ResolverInner.new "9.9.9.9"))))) = true ∧
    (report_ok ((report_fail 0)^[17]
        (report_ok (report_ok (ResolverInner.new "9.9.9.9"))))).disabled = false ∧
    (counts 100 60 [report_ok ((report_fail 0)^[17]
        (report_ok (report_ok (ResolverInner.new "9.9.9.9"))))]).1.1 = 1 ∧
    (counts 100 60 [report_ok ((report_fail 0)^[17]
        (report_ok (report_ok (ResolverInner.new "9.9.9.9"))))]).1.2 = 1 ∧
    (choose_random_candidates 100 60 [report_ok ((report_fail 0)^[17]
        (report_ok (report_ok (ResolverInner.new "9.9.9.9"))))]).1 =
      ["9.9.9.9"] := by
  decide

/-- C3 (amended): disabling happens exactly inside `report_fail` — after it,
the endpoint is disabled iff the incremented counters satisfy the health
condition or it was already disabled, with `disabled_at` stamped on a fresh
disable; a report that leaves the condition unsatisfied never newly disables;
`report_ok` only increments `ok` and never disables even if the new counters
satisfy the condition; and the re-enable pass of `choose_random`/`counts`
never disables an endpoint. -/
theorem resolver_disable_amended :
    ∀ (now cooldown : ℕ) (r : ResolverInner),
      ((report_fail now r).disabled =
        (should_disable { r with fail := r.fail + 1 } || r.disabled)) ∧
      (report_fail now r).ok = r.ok ∧
      (report_fail now r).fail = r.fail + 1 ∧
      ((report_fail now r).disabled_at =
        if should_disable { r with fail := r.fail + 1 } then some now
        else r.disabled_at) ∧
      (report_ok r).disabled = r.disabled ∧
      (report_ok r).disabled_at = r.disabled_at ∧
      (report_ok r).ok = r.ok + 1 ∧
      (report_ok r).fail = r.fail ∧
      ((maybe_reenable now cooldown r).disabled = true → r.disabled = true) := by
  intro now cooldown r
  refine ⟨?_, ?_, ?_, ?_, rfl, rfl, rfl, rfl, ?_⟩
  · simp only [report_fail]
    split <;> simp_all
  · simp only [report_fail]
    split <;> rfl
  · simp only [report_fail]
    split <;> rfl
  · simp only [report_fail]
    split <;> simp_all
  · intro hd
    unfold maybe_reenable at hd
    by_cases h : r.disabled = true
    · exact h
    · rw [if_neg h] at hd
      exact hd

/-- C3 witness: a concrete instance of the amended behavior — a `report_fail`
at `ok = 0, fail = 9` crosses the `fail ≥ 10 ∧ ok = 0` condition and disables
immediately, and the re-enable pass of a `counts`/`choose_random` call on an
endpoint that is still disabled afterwards proves the endpoint was already
disabled before the call. -/
theorem resolver_disable_amended_witness :
    (report_fail 5 { addr := "8.8.8.8", ok := 0, fail := 9, disabled := false,
                     disabled_at := none }).disabled = true ∧
    (report_fail 5 { addr := "8.8.8.8", ok := 0, fail := 9, disabled := false,
                     disabled_at := none }).disabled_at = some 5 ∧
    ({ addr := "9.9.9.9", ok := 0, fail := 10, disabled := true,
       disabled_at := some 3 } : ResolverInner).disabled = true := by
  have h := resolver_disable_amended 5 0
    { addr := "8.8.8.8", ok := 0, fail := 9, disabled := false,
      disabled_at := none }
  have h2 := resolver_disable_amended 5 100
    { addr := "9.9.9.9", ok := 0, fail := 10, disabled := true,
      disabled_at := some 3 }
  refine ⟨?_, ?_, ?_⟩
  · rw [h.1]
    decide
  · rw [h.2.2.2.1]
    decide
  · exact h2.2.2.2.2.2.2.2.2 (by decide)

/-- The retry loop's `while` condition always holds before the first attempt. -/
theorem loopCond_zero (cfg : ScanCfg) : loopCond cfg 0 = true := by
  simp only [loopCond, Bool.or_eq_true, decide_eq_true_eq]
  omega

/-- Rcode classification bumps one of the rcode counters but leaves `sent`
and `skipped` unchanged. -/
theorem classifyRcode_sent_skipped (rcode : String) (m : Metrics) :
    (classifyRcode rcode m).1.sent = m.sent ∧
    (classifyRcode rcode m).1.skipped = m.skipped := by
  unfold classifyRcode
  split_ifs <;> simp

/-- One loop-body step increments `sent` by exactly one and never touches
`skipped`. -/
theorem stepBody_sent_skipped (cfg : ScanCfg) (e : AttemptOutcome) (st : HostSt) :
    (stepBody cfg e st).1.metrics.sent = st.metrics.sent + 1 ∧
    (stepBody cfg e st).1.metrics.skipped = st.metrics.skipped := by
  rcases e with ⟨resolver, rcode, records⟩ | resolver | sys
  · simp only [stepBody]
    rcases hcm : classifyRcode rcode
        { st.metrics with sent := st.metrics.sent + 1 } with ⟨m2, pen⟩
    have hm := classifyRcode_sent_skipped rcode
        { st.metrics with sent := st.metrics.sent + 1 }
    rw [hcm] at hm
    simp only at hm
    split_ifs <;> simp_all
  · simp [stepBody]
  · rcases sys with _ | ips <;> simp [stepBody]

/-- The retry loop never decreases `sent` and never touches `skipped`. -/
theorem runLoop_sent_skipped (cfg : ScanCfg) (envs : List AttemptOutcome)
    (st : HostSt) :
    st.metrics.sent ≤ (runLoop cfg envs st).1.metrics.sent ∧
    (runLoop cfg envs st).1.metrics.skipped = st.metrics.skipped := by
  induction envs generalizing st with
  | nil =>
    unfold runLoop
    split <;> simp
  | cons e rest ih =>
    unfold runLoop
    by_cases hlc : loopCond cfg st.attempt = true
    · rw [if_pos hlc]
      rcases hsb : stepBody cfg e st with ⟨st2, b⟩
      have hs := stepBody_sent_skipped cfg e st
      rw [hsb] at hs
      simp only at hs
      cases b with
      | true =>
        dsimp only
        exact ⟨by omega, hs.2⟩
      | false =>
        dsimp only
        split_ifs with h1 h2
        · rcases ih st2 with ⟨ihs, ihk⟩
          exact ⟨by omega, by rw [ihk, hs.2]⟩
        · exact ⟨by simp only; omega, hs.2⟩
        · rcases ih st2 with ⟨ihs, ihk⟩
          exact ⟨by omega, by rw [ihk, hs.2]⟩
    · rw [if_neg hlc]
      simp

/-- C1 counterexample: with default output settings (`show_all` true, i.e.
neither `--only-alive` nor suppressed printing), a host whose single attempt
receives NXDomain terminates with `success = false`, and the terminal
`!success && show_all` branch increments the `failed` counter — so `failed`
is incremented for an NXDomain host, contrary to the claim that it never is
regardless of the output settings. -/
theorem nxdomain_failed_cex :
    (runHost { retry := 1, not_print := false, only_alive := false, wild := [] }
        none [AttemptOutcome.answer "1.1.1.1" "NXDomain" []]).1.metrics.failed
        = 1 ∧
    (runHost { retry := 1, not_print := false, only_alive := false, wild := [] }
        none [AttemptOutcome.answer "1.1.1.1" "NXDomain" []]).1.metrics.nxdomain
        = 1 ∧
    (runHost { retry := 1, not_print := false, only_alive := false, wild := [] }
        none [AttemptOutcome.answer "1.1.1.1" "NXDomain" []]).1.events = [] := by
  decide

/-- C1 (amended): an attempt answered with NXDomain bumps only `sent` and
`nxdomain`, issues no resolver report at all (in particular no `report_fail`
on the attempt's resolver), and terminates the retry loop with
`success = false`, for every retry policy and output setting; however the
`failed` counter for the host is then incremented exactly when `show_all`
holds (neither `not_print` nor `only_alive`), because the terminal
non-success branch still runs — `failed` stays 0 only under `only_alive` or
suppressed printing. -/
theorem nxdomain_behavior_amended :
    (∀ (cfg : ScanCfg) (resolver : String) (records : List RawRecord)
        (st : HostSt),
      stepBody cfg (AttemptOutcome.answer resolver "NXDomain" records) st =
        ({ st with
            attempt := st.attempt + 1,
            metrics := { st.metrics with
                sent := st.metrics.sent + 1,
                nxdomain := st.metrics.nxdomain + 1 },
            success := false }, true)) ∧
    (∀ (retry : ℤ) (np oa : Bool) (wild : List String) (resolver : String)
        (records : List RawRecord),
      (runHost { retry := retry, not_print := np, only_alive := oa, wild := wild }
          none [AttemptOutcome.answer resolver "NXDomain" records]).1.metrics.nxdomain
          = 1 ∧
      (runHost { retry := retry, not_print := np, only_alive := oa, wild := wild }
          none [AttemptOutcome.answer resolver "NXDomain" records]).1.events
          = [] ∧
      (runHost { retry := retry, not_print := np, only_alive := oa, wild := wild }
          none [AttemptOutcome.answer resolver "NXDomain" records]).1.metrics.failed
          = (if np = false ∧ oa = false then 1 else 0) ∧
      (runHost { retry := retry, not_print := np, only_alive := oa, wild := wild }
          none [AttemptOutcome.answer resolver "NXDomain" records]).2 = true) := by
  have hstep : ∀ (cfg : ScanCfg) (resolver : String) (records : List RawRecord)
      (st : HostSt),
      stepBody cfg (AttemptOutcome.answer resolver "NXDomain" records) st =
        ({ st with
            attempt := st.attempt + 1,
            metrics := { st.metrics with
                sent := st.metrics.sent + 1,
                nxdomain := st.metrics.nxdomain + 1 },
            success := false }, true) := by
    intro cfg resolver records st
    rfl
  refine ⟨hstep, fun retry np oa wild resolver records => ?_⟩
  set cfg : ScanCfg :=
    { retry := retry, not_print := np, only_alive := oa, wild := wild } with hcfg
  have hloop : runLoop cfg [AttemptOutcome.answer resolver "NXDomain" records]
      HostSt.init =
      ({ HostSt.init with
          attempt := 1,
          metrics := { Metrics.zero with sent := 1, nxdomain := 1 },
          success := false }, true) := by
    unfold runLoop
    rw [show HostSt.init.attempt = 0 from rfl, loopCond_zero cfg]
    simp only [if_true]
    rw [hstep]
    rfl
  unfold runHost
  simp only [hloop]
  cases np <;> cases oa <;> simp [hostSkip, HostSt.init, Metrics.zero]

/-- Replacing the entry of a present key makes `find?` on that key return the
replacement. -/
theorem find_replace (k : String) (it : Item) :
    ∀ m : List (String × Item), shardContains m k = true →
      (m.map (fun p => if p.1 = k then (k, it) else p)).find?
        (fun p => p.1 = k) = some (k, it) := by
  intro m
  induction m with
  | nil => intro hc; simp [shardContains] at hc
  | cons p m ih =>
    intro hc
    rw [List.map_cons]
    by_cases hp : p.1 = k
    · rw [if_pos hp]
      rw [List.find?_cons_of_pos _ (by simp)]
    · rw [if_neg hp]
      rw [List.find?_cons_of_neg _ (by simp [hp])]
      apply ih
      simp only [shardContains, List.any_cons, Bool.or_eq_true,
        decide_eq_true_eq] at hc
      rcases hc with h | h
      · exact absurd h hp
      · simpa [shardContains] using h

/-- After `add`, `get` on the same key returns the stored item. -/
theorem get_add (db : StatusDb) (k : String) (it : Item) :
    (db.add k it).get k = some it := by
  unfold StatusDb.add StatusDb.get
  by_cases hc : shardContains (db.shards (shardIdx k)) k = true
  · rw [if_pos hc]
    simp only [Function.update_same]
    unfold shardInsert
    rw [if_pos hc]
    rw [find_replace k it _ hc]
    rfl
  · rw [if_neg hc]
    simp only [Function.update_same]
    unfold shardInsert
    rw [if_neg hc]
    rw [List.find?_cons_of_pos _ (by simp)]
    rfl

/-- With the `while` condition true, a loop run over at least one available
attempt outcome sends at least one more query. -/
theorem runLoop_cons_pos (cfg : ScanCfg) (e : AttemptOutcome)
    (rest : List AttemptOutcome) (st : HostSt)
    (hlc : loopCond cfg st.attempt = true) :
    st.metrics.sent + 1 ≤ (runLoop cfg (e :: rest) st).1.metrics.sent := by
  unfold runLoop
  rw [if_pos hlc]
  rcases hsb : stepBody cfg e st with ⟨st2, b⟩
  have hs := stepBody_sent_skipped cfg e st
  rw [hsb] at hs
  simp only at hs
  cases b with
  | true =>
    dsimp only
    omega
  | false =>
    dsimp only
    split_ifs with hA hB
    · have := (runLoop_sent_skipped cfg rest st2).1
      omega
    · dsimp only
      omega
    · have := (runLoop_sent_skipped cfg rest st2).1
      omega

/-- The `runHost` wrapper with a non-terminal cached state runs the loop:
its `skipped` and `sent` counters are the loop's. -/
theorem runHost_failed_counters (cfg : ScanCfg) (envs : List AttemptOutcome) :
    (runHost cfg (some EntryState.Failed) envs).1.metrics.skipped =
      (runLoop cfg envs HostSt.init).1.metrics.skipped ∧
    (runHost cfg (some EntryState.Failed) envs).1.metrics.sent =
      (runLoop cfg envs HostSt.init).1.metrics.sent := by
  unfold runHost
  rw [show hostSkip (some EntryState.Failed) = false from rfl]
  simp only [Bool.false_eq_true, if_false]
  split_ifs <;> simp

/-- C10: loading a persisted entry whose state string is neither `"Ok"` nor
`"WildFiltered"` stores it with state `Failed` (and `get` then returns it),
and the orchestrator's start-of-task cache check does not skip such an entry:
the task's `skipped` counter stays 0 and it sends at least one query, so the
host is re-queried on resume. -/
theorem resume_requeries_non_terminal (s : String)
    (h1 : s ≠ "Ok") (h2 : s ≠ "WildFiltered") :
    string_to_state s = EntryState.Failed ∧
    (∀ (db : StatusDb) (p : PersistItem), p.state = s →
      (db.add p.domain (loadItem p)).get p.domain = some (loadItem p) ∧
      (loadItem p).state = EntryState.Failed) ∧
    (∀ (cfg : ScanCfg) (e : AttemptOutcome) (rest : List AttemptOutcome),
      (runHost cfg (some (string_to_state s)) (e :: rest)).1.metrics.skipped
        = 0 ∧
      1 ≤ (runHost cfg (some (string_to_state s)) (e :: rest)).1.metrics.sent) := by
  have hsts : string_to_state s = EntryState.Failed := by
    unfold string_to_state
    rw [if_neg h1, if_neg h2]
  refine ⟨hsts, ?_, ?_⟩
  · intro db p hp
    refine ⟨get_add db p.domain (loadItem p), ?_⟩
    simp only [loadItem, hp, hsts]
  · intro cfg e rest
    rw [hsts]
    have hck := runHost_failed_counters cfg (e :: rest)
    constructor
    · rw [hck.1, (runLoop_sent_skipped cfg (e :: rest) HostSt.init).2]
      rfl
    · rw [hck.2]
      have := runLoop_cons_pos cfg e rest HostSt.init (loopCond_zero cfg)
      omega

/-- C10 witness: a concrete corrupted state string is mapped to `Failed` and
its host is re-queried (one query sent, nothing skipped). -/
theorem resume_requeries_non_terminal_witness :
    string_to_state "Corrupt" = EntryState.Failed ∧
    (runHost { retry := 0, not_print := false, only_alive := false, wild := [] }
        (some (string_to_state "Corrupt"))
        [AttemptOutcome.timeoutOrErr "1.1.1.1"]).1.metrics.skipped = 0 ∧
    1 ≤ (runHost { retry := 0, not_print := false, only_alive := false, wild := [] }
        (some (string_to_state "Corrupt"))
        [AttemptOutcome.timeoutOrErr "1.1.1.1"]).1.metrics.sent := by
  have h := resume_requeries_non_terminal "Corrupt" (by decide) (by decide)
  have h3 := h.2.2
    { retry := 0, not_print := false, only_alive := false, wild := [] }
    (AttemptOutcome.timeoutOrErr "1.1.1.1") []
  exact ⟨h.1, h3.1, h3.2⟩

/-- Characters with equal code points are equal. -/
theorem char_toNat_injective (a b : Char) (h : a.toNat = b.toNat) : a = b := by
  have := congrArg Char.ofNat h
  rwa [Char.ofNat_toNat, Char.ofNat_toNat] at this

/-- The lexicographic order on character lists is total. -/
theorem lexLe_total (a b : List Char) : lexLe a b = true ∨ lexLe b a = true := by
  induction a generalizing b with
  | nil => left; rfl
  | cons x xs ih =>
    cases b with
    | nil => right; rfl
    | cons y ys =>
      by_cases h1 : x.toNat < y.toNat
      · left
        simp [lexLe, h1]
      · by_cases h2 : y.toNat < x.toNat
        · right
          simp [lexLe, h2]
        · rcases ih ys with h | h
          · left
            simp [lexLe, h1, h2, h]
          · right
            simp [lexLe, h1, h2, h]

/-- The lexicographic order on character lists is transitive. -/
theorem lexLe_trans (a b c : List Char) (hab : lexLe a b = true)
    (hbc : lexLe b c = true) : lexLe a c = true := by
  induction a generalizing b c with
  | nil => rfl
  | cons x xs ih =>
    cases b with
    | nil => simp [lexLe] at hab
    | cons y ys =>
      cases c with
      | nil => simp [lexLe] at hbc
      | cons z zs =>
        simp only [lexLe] at hab hbc
        by_cases hxz : x.toNat < z.toNat
        · simp [lexLe, hxz]
        · by_cases hxy : x.toNat < y.toNat
          · by_cases hyz : y.toNat < z.toNat
            · omega
            · by_cases hzy : z.toNat < y.toNat
              · rw [if_neg hyz, if_pos hzy] at hbc
                simp at hbc
              · omega
          · by_cases hyx : y.toNat < x.toNat
            · rw [if_neg hxy, if_pos hyx] at hab
              simp at hab
            · rw [if_neg hxy, if_neg hyx] at hab
              by_cases hyz : y.toNat < z.toNat
              · omega
              · by_cases hzy : z.toNat < y.toNat
                · rw [if_neg hyz, if_pos hzy] at hbc
                  simp at hbc
                · rw [if_neg hyz, if_neg hzy] at hbc
                  have hzx : ¬ z.toNat < x.toNat := by omega
                  simp only [lexLe]
                  rw [if_neg hxz, if_neg hzx]
                  exact ih ys zs hab hbc

/-- The lexicographic order on character lists is antisymmetric. -/
theorem lexLe_antisymm (a b : List Char) (hab : lexLe a b = true)
    (hba : lexLe b a = true) : a = b := by
  induction a generalizing b with
  | nil =>
    cases b with
    | nil => rfl
    | cons y ys => simp [lexLe] at hba
  | cons x xs ih =>
    cases b with
    | nil => simp [lexLe] at hab
    | cons y ys =>
      simp only [lexLe] at hab hba
      by_cases hxy : x.toNat < y.toNat
      · have hyx : ¬ y.toNat < x.toNat := by omega
        rw [if_neg hyx, if_pos hxy] at hba
        simp at hba
      · by_cases hyx : y.toNat < x.toNat
        · rw [if_neg hxy, if_pos hyx] at hab
          simp at hab
        · rw [if_neg hxy, if_neg hyx] at hab
          rw [if_neg hyx, if_neg hxy] at hba
          have hx : x = y := char_toNat_injective x y (by omega)
          rw [hx, ih ys hab hba]

instance : IsTotal String strLeRel :=
  ⟨fun a b => lexLe_total a.data b.data⟩

instance : IsTrans String strLeRel :=
  ⟨fun a b c => lexLe_trans a.data b.data c.data⟩

/-- Antisymmetry of the string order. -/
theorem strLeRel_antisymm (a b : String) (hab : strLeRel a b)
    (hba : strLeRel b a) : a = b := by
  cases a with
  | mk da =>
    cases b with
    | mk db =>
      have := lexLe_antisymm da db hab hba
      rw [this]

/-- Every element of `dedupConsec l` is an element of `l`. -/
theorem dedupConsec_subset (l : List String) (x : String)
    (h : x ∈ dedupConsec l) : x ∈ l := by
  induction l with
  | nil => simp [dedupConsec] at h
  | cons a l ih =>
    cases l with
    | nil => simpa [dedupConsec] using h
    | cons b rest =>
      unfold dedupConsec at h
      split_ifs at h with hab
      · exact List.mem_cons_of_mem a (ih h)
      · rcases List.mem_cons.mp h with rfl | h2
        · exact List.mem_cons_self x _
        · exact List.mem_cons_of_mem a (ih h2)

/-- `dedupConsec` never lengthens a list. -/
theorem dedupConsec_length_le (l : List String) :
    (dedupConsec l).length ≤ l.length := by
  induction l with
  | nil => simp [dedupConsec]
  | cons a l ih =>
    cases l with
    | nil => simp [dedupConsec]
    | cons b rest =>
      unfold dedupConsec
      split_ifs with hab
      · exact Nat.le_succ_of_le ih
      · simpa using ih

/-- `dedupConsec` preserves sortedness. -/
theorem dedupConsec_sorted (l : List String) (h : List.Sorted strLeRel l) :
    List.Sorted strLeRel (dedupConsec l) := by
  induction l with
  | nil => simp [dedupConsec]
  | cons a l ih =>
    cases l with
    | nil => simp [dedupConsec]
    | cons b rest =>
      rcases List.sorted_cons.mp h with ⟨ha, htail⟩
      unfold dedupConsec
      split_ifs with hab
      · exact ih htail
      · apply List.sorted_cons.mpr
        refine ⟨?_, ih htail⟩
        intro x hx
        exact ha x (dedupConsec_subset _ x hx)

/-- On a sorted list, `dedupConsec` removes all duplicates. -/
theorem dedupConsec_nodup (l : List String) (h : List.Sorted strLeRel l) :
    (dedupConsec l).Nodup := by
  induction l with
  | nil => simp [dedupConsec]
  | cons a l ih =>
    cases l with
    | nil => simp [dedupConsec]
    | cons b rest =>
      rcases List.sorted_cons.mp h with ⟨ha, htail⟩
      unfold dedupConsec
      split_ifs with hab
      · exact ih htail
      · apply List.nodup_cons.mpr
        refine ⟨?_, ih htail⟩
        intro hmem
        have hmem2 : a ∈ b :: rest := dedupConsec_subset _ a hmem
        rcases List.mem_cons.mp hmem2 with rfl | hmem3
        · exact hab rfl
        · have h1 : strLeRel a b := ha b (List.mem_cons_self b rest)
          have h2 : strLeRel b a :=
            (List.sorted_cons.mp htail).1 a hmem3
          exact hab (strLeRel_antisymm a b h1 h2)

/-- The `sort(); dedup();` idiom returns a sorted, duplicate-free list whose
elements come from the input, no longer than the input. -/
theorem sortDedup_props (l : List String) :
    List.Sorted strLeRel (sortDedup l) ∧ (sortDedup l).Nodup ∧
    (∀ x ∈ sortDedup l, x ∈ l) ∧ (sortDedup l).length ≤ l.length := by
  have hsorted : List.Sorted strLeRel (sortStr l) :=
    List.sorted_insertionSort strLeRel l
  have hperm := List.perm_insertionSort strLeRel l
  refine ⟨dedupConsec_sorted _ hsorted, dedupConsec_nodup _ hsorted, ?_, ?_⟩
  · intro x hx
    exact hperm.mem_iff.mp (dedupConsec_subset _ x hx)
  · calc (dedupConsec (sortStr l)).length ≤ (sortStr l).length :=
          dedupConsec_length_le _
    _ = l.length := hperm.length_eq

/-- C8 counterexample: `dynamic_extend` output is not confined to label
lengths in `[3, 32]` — with empty inputs the result is just the sorted
common-service token list, which contains `"db"` of byte length 2. -/
theorem dynamic_extend_cex :
    ("db" ∈ dynamic_extend [] [] 0 []) ∧ ¬ (3 ≤ byteLen "db") := by
  constructor
  · decide
  · decide

/-- C8 (amended): for all inputs and any iteration order of the internal
frequency map, `dynamic_extend` returns a sorted, duplicate-free list in
which every entry is absent from `base`, every entry is either a fixed
common-service token (some of which have length 2, e.g. `"db"`) or a
discovered first label with byte length in `[3, 32]`, and whose size is at
most `top_n` plus the size of the common token list; the output is a
function of the inputs together with the frequency-map iteration order. -/
theorem dynamic_extend_props (discovered base : List String) (top_n : ℕ)
    (mapOrder : List String) :
    List.Sorted strLeRel (dynamic_extend discovered base top_n mapOrder) ∧
    (dynamic_extend discovered base top_n mapOrder).Nodup ∧
    (∀ x ∈ dynamic_extend discovered base top_n mapOrder, x ∉ base) ∧
    (∀ x ∈ dynamic_extend discovered base top_n mapOrder,
      x ∈ commonTokens ∨ (3 ≤ byteLen x ∧ byteLen x ≤ 32)) ∧
    (dynamic_extend discovered base top_n mapOrder).length ≤
      top_n + commonTokens.length := by
  have hout : dynamic_extend discovered base top_n mapOrder =
      sortDedup
        ((((List.insertionSort countGe (freqItems discovered mapOrder)).take
            top_n).filter (fun p => !(base.contains p.1))).map Prod.fst ++
          commonTokens.filter (fun c => !(base.contains c))) := rfl
  set items := List.insertionSort countGe (freqItems discovered mapOrder)
    with hitems
  set picked :=
    ((items.take top_n).filter (fun p => !(base.contains p.1))).map Prod.fst
    with hpicked
  set commonsF := commonTokens.filter (fun c => !(base.contains c))
    with hcommonsF
  rw [hout]
  have hsd := sortDedup_props (picked ++ commonsF)
  have hmem_pick : ∀ x ∈ picked, x ∉ base ∧
      (3 ≤ byteLen x ∧ byteLen x ≤ 32) := by
    intro x hx
    rw [hpicked] at hx
    rcases List.mem_map.mp hx with ⟨p, hp, rfl⟩
    rcases List.mem_filter.mp hp with ⟨hp1, hp2⟩
    constructor
    · intro hxb
      simp [hxb] at hp2
    · have hp_items : p ∈ items := (List.take_sublist top_n items).mem hp1
      rw [hitems] at hp_items
      have hp3 : p ∈ freqItems discovered mapOrder :=
        (List.perm_insertionSort countGe
          (freqItems discovered mapOrder)).mem_iff.mp hp_items
      rcases List.mem_map.mp hp3 with ⟨l, hl, hpl⟩
      rcases List.mem_filter.mp hl with ⟨_, hl2⟩
      have hlq : l ∈ qualLabels discovered := by
        simpa using hl2
      rcases List.mem_filter.mp hlq with ⟨_, hq⟩
      have hfst : p.1 = l := by rw [← hpl]
      rw [hfst]
      simpa using hq
  have hmem_comm : ∀ x ∈ commonsF, x ∈ commonTokens ∧ x ∉ base := by
    intro x hx
    rw [hcommonsF] at hx
    rcases List.mem_filter.mp hx with ⟨h1, h2⟩
    refine ⟨h1, ?_⟩
    intro hxb
    simp [hxb] at h2
  refine ⟨hsd.1, hsd.2.1, ?_, ?_, ?_⟩
  · intro x hx
    rcases List.mem_append.mp (hsd.2.2.1 x hx) with h | h
    · exact (hmem_pick x h).1
    · exact (hmem_comm x h).2
  · intro x hx
    rcases List.mem_append.mp (hsd.2.2.1 x hx) with h | h
    · exact Or.inr (hmem_pick x h).2
    · exact Or.inl (hmem_comm x h).1
  · have hlen := hsd.2.2.2
    rw [List.length_append] at hlen
    have h1 : picked.length ≤ top_n := by
      rw [hpicked]
      rw [List.length_map]
      calc ((items.take top_n).filter (fun p => !(base.contains p.1))).length
          ≤ (items.take top_n).length := List.length_filter_le _ _
        _ ≤ top_n := by
            rw [List.length_take]
            exact inf_le_left
    have h2 : commonsF.length ≤ commonTokens.length := by
      rw [hcommonsF]
      exact List.length_filter_le _ _
    omega

/-- C8 witness: a concrete instance of the amended properties — in a run
with one discovered host, its first label `"api"` appears in the output,
which excludes the base entries. -/
theorem dynamic_extend_props_witness :
    ("api" ∈ dynamic_extend ["api.example.com"] ["www"] 1 ["api"]) ∧
    "api" ∉ (["www"] : List String) := by
  have h := dynamic_extend_props ["api.example.com"] ["www"] 1 ["api"]
  have hmem : "api" ∈ dynamic_extend ["api.example.com"] ["www"] 1 ["api"] := by
    decide
  exact ⟨hmem, h.2.2.1 "api" hmem⟩

/-- `shardContains` is key membership. -/
theorem shardContains_iff (m : List (String × Item)) (k : String) :
    shardContains m k = true ↔ k ∈ m.map Prod.fst := by
  simp only [shardContains, List.any_eq_true, decide_eq_true_eq, List.mem_map]

/-- Integer cast distributes over a summed list of naturals. -/
theorem intCast_mapSum (g : Fin 64 → ℕ) (l : List (Fin 64)) :
    (l.map (fun a => ((g a : ℕ) : ℤ))).sum = ((l.map g).sum : ℤ) := by
  induction l with
  | nil => rfl
  | cons a l ih =>
    rw [List.map_cons, List.sum_cons, List.map_cons, List.sum_cons,
      Nat.cast_add, ih]

/-- Shard-size sum after a single-shard update. -/
theorem listSum_update (f : Fin 64 → List (String × Item)) (i0 : Fin 64)
    (m2 : List (String × Item)) :
    ((List.finRange 64).map
        (fun i => (((Function.update f i0 m2) i).length : ℤ))).sum =
      ((List.finRange 64).map (fun i => ((f i).length : ℤ))).sum -
        ((f i0).length : ℤ) + (m2.length : ℤ) := by
  rw [← Fin.sum_univ_def, ← Fin.sum_univ_def]
  have hfun : (fun i => (((Function.update f i0 m2) i).length : ℤ)) =
      Function.update (fun i => ((f i).length : ℤ)) i0 ((m2.length : ℤ)) := by
    funext i
    by_cases h : i = i0
    · subst h
      simp
    · simp [Function.update_noteq h]
  rw [hfun, Finset.sum_update_of_mem (Finset.mem_univ i0),
    Finset.sum_eq_sum_diff_singleton_add (Finset.mem_univ i0)
      (fun i => ((f i).length : ℤ))]
  ring

/-- Key membership across the whole store, shard-wise. -/
theorem mem_keysOf (db : StatusDb) (k : String) :
    k ∈ keysOf db ↔ ∃ i : Fin 64, k ∈ (db.shards i).map Prod.fst := by
  unfold keysOf
  rw [List.mem_flatten]
  constructor
  · rintro ⟨l, hl, hkl⟩
    rcases List.mem_map.mp hl with ⟨i, _, rfl⟩
    exact ⟨i, hkl⟩
  · rintro ⟨i, hi⟩
    exact ⟨(db.shards i).map Prod.fst,
      List.mem_map_of_mem _ (List.mem_finRange i), hi⟩

/-- Under the invariant, global key presence is presence in the key's own
shard. -/
theorem keysOf_contains (db : StatusDb) (hinv : DbInv db) (k : String) :
    k ∈ keysOf db ↔ shardContains (db.shards (shardIdx k)) k = true := by
  rw [mem_keysOf, shardContains_iff]
  constructor
  · rintro ⟨i, hi⟩
    rcases List.mem_map.mp hi with ⟨p, hp, rfl⟩
    have hidx := hinv.2.1 i p hp
    rw [hidx]
    exact List.mem_map_of_mem _ hp
  · intro h
    exact ⟨shardIdx k, h⟩

/-- Under the invariant, the concatenated key list has no duplicates. -/
theorem keysOf_nodup (db : StatusDb) (hinv : DbInv db) : (keysOf db).Nodup := by
  unfold keysOf
  rw [List.nodup_flatten]
  constructor
  · intro l hl
    rcases List.mem_map.mp hl with ⟨i, _, rfl⟩
    exact hinv.1 i
  · rw [List.pairwise_map]
    refine (List.nodup_finRange 64).imp ?_
    intro i j hij x hxi hxj
    rcases List.mem_map.mp hxi with ⟨p, hp, rfl⟩
    rcases List.mem_map.mp hxj with ⟨q, hq, hqx⟩
    have h1 := hinv.2.1 i p hp
    have h2 := hinv.2.1 j q hq
    rw [hqx] at h2
    rw [h1] at h2
    exact hij h2

/-- Under the invariant, the length counter equals the number of distinct
keys across all shards. -/
theorem dbinv_length_eq (db : StatusDb) (hinv : DbInv db) :
    db.length = (distinctCount db : ℤ) := by
  unfold distinctCount
  rw [List.dedup_eq_self.mpr (keysOf_nodup db hinv)]
  rw [hinv.2.2]
  unfold keysOf
  rw [List.length_flatten, List.map_map]
  have hmap : (List.finRange 64).map (List.length ∘ fun i => (db.shards i).map Prod.fst) =
      (List.finRange 64).map (fun i => (db.shards i).length) := by
    apply List.map_congr_left
    intro i _
    simp [Function.comp]
  rw [hmap, ← intCast_mapSum (fun i => (db.shards i).length) (List.finRange 64)]

/-- Removing a present key from a shard with duplicate-free keys shortens it
by exactly one. -/
theorem shardRemove_length (k : String) :
    ∀ m : List (String × Item), (m.map Prod.fst).Nodup →
      shardContains m k = true →
      (shardRemove m k).length + 1 = m.length := by
  intro m
  induction m with
  | nil =>
    intro _ hc
    simp [shardContains] at hc
  | cons p m ih =>
    intro hnd hc
    rw [List.map_cons, List.nodup_cons] at hnd
    unfold shardRemove
    rw [List.filter_cons]
    by_cases hp : p.1 = k
    · rw [if_neg (by simp [hp])]
      have hfix : List.filter (fun q => !(decide (q.1 = k))) m = m := by
        apply List.filter_eq_self.mpr
        intro q hq
        have hqk : q.1 ≠ k := by
          intro hqk
          exact hnd.1 (by
            rw [hp, ← hqk]
            exact List.mem_map_of_mem _ hq)
        simp [hqk]
      rw [hfix]
      simp
    · rw [if_pos (by simp [hp])]
      have hcm : shardContains m k = true := by
        rcases List.mem_cons.mp ((shardContains_iff _ k).mp hc) with h | h
        · exact absurd h.symm hp
        · exact (shardContains_iff _ k).mpr h
      have := ih hnd.2 hcm
      unfold shardRemove at this
      simp only [List.length_cons]
      omega

/-- Key replacement inside a shard leaves the key list unchanged. -/
theorem map_fst_replace (m : List (String × Item)) (k : String) (it : Item) :
    (m.map (fun p => if p.1 = k then (k, it) else p)).map Prod.fst =
      m.map Prod.fst := by
  rw [List.map_map]
  apply List.map_congr_left
  intro p _
  by_cases hp : p.1 = k
  · simp [Function.comp, hp]
  · simp [Function.comp, hp]

/-- `add` preserves the store invariant and increments the length counter
exactly when the key was absent. -/
theorem dbinv_add (db : StatusDb) (hinv : DbInv db) (k : String) (it : Item) :
    DbInv (db.add k it) ∧
    (db.add k it).length = db.length + (if k ∈ keysOf db then 0 else 1) := by
  have hpresence := keysOf_contains db hinv k
  unfold StatusDb.add
  by_cases hc : shardContains (db.shards (shardIdx k)) k = true
  · rw [if_pos hc]
    have hif : (if k ∈ keysOf db then (0 : ℤ) else 1) = 0 := by
      rw [if_pos (hpresence.mpr hc)]
    refine ⟨⟨?_, ?_, ?_⟩, ?_⟩
    · intro i
      by_cases hi : i = shardIdx k
      · subst hi
        simp only [Function.update_same]
        unfold shardInsert
        rw [if_pos hc, map_fst_replace]
        exact hinv.1 _
      · simp only [Function.update_noteq hi]
        exact hinv.1 i
    · intro i p hp
      by_cases hi : i = shardIdx k
      · subst hi
        simp only [Function.update_same] at hp
        unfold shardInsert at hp
        rw [if_pos hc] at hp
        rcases List.mem_map.mp hp with ⟨q, hq, rfl⟩
        by_cases hqk : q.1 = k
        · rw [if_pos hqk]
        · rw [if_neg hqk]
          exact hinv.2.1 _ q hq
      · simp only [Function.update_noteq hi] at hp
        exact hinv.2.1 i p hp
    · dsimp only
      rw [listSum_update]
      unfold shardInsert
      rw [if_pos hc, List.length_map]
      rw [← hinv.2.2]
      ring
    · dsimp only
      rw [hif]
      ring
  · rw [if_neg hc]
    have hif : (if k ∈ keysOf db then (0 : ℤ) else 1) = 1 := by
      rw [if_neg (fun hmem => hc (hpresence.mp hmem))]
    refine ⟨⟨?_, ?_, ?_⟩, ?_⟩
    · intro i
      by_cases hi : i = shardIdx k
      · subst hi
        simp only [Function.update_same]
        unfold shardInsert
        rw [if_neg hc, List.map_cons]
        apply List.nodup_cons.mpr
        refine ⟨?_, hinv.1 _⟩
        intro hmem
        exact hc ((shardContains_iff _ k).mpr hmem)
      · simp only [Function.update_noteq hi]
        exact hinv.1 i
    · intro i p hp
      by_cases hi : i = shardIdx k
      · subst hi
        simp only [Function.update_same] at hp
        unfold shardInsert at hp
        rw [if_neg hc] at hp
        rcases List.mem_cons.mp hp with rfl | hp2
        · rfl
        · exact hinv.2.1 _ p hp2
      · simp only [Function.update_noteq hi] at hp
        exact hinv.2.1 i p hp
    · dsimp only
      rw [listSum_update]
      unfold shardInsert
      rw [if_neg hc, List.length_cons]
      rw [← hinv.2.2]
      push_cast
      ring
    · dsimp only
      rw [hif]

/-- `set` has the same body as `add`. -/
theorem set_eq_add (db : StatusDb) (k : String) (it : Item) :
    db.set k it = db.add k it := rfl

/-- `del` preserves the store invariant and decrements the length counter
exactly when the key was present. -/
theorem dbinv_del (db : StatusDb) (hinv : DbInv db) (k : String) :
    DbInv (db.del k) ∧
    (db.del k).length = db.length - (if k ∈ keysOf db then 1 else 0) := by
  have hpresence := keysOf_contains db hinv k
  unfold StatusDb.del
  by_cases hc : shardContains (db.shards (shardIdx k)) k = true
  · rw [if_pos hc]
    have hif : (if k ∈ keysOf db then (1 : ℤ) else 0) = 1 := by
      rw [if_pos (hpresence.mpr hc)]
    have hlen := shardRemove_length k (db.shards (shardIdx k))
      (hinv.1 _) hc
    refine ⟨⟨?_, ?_, ?_⟩, ?_⟩
    · intro i
      by_cases hi : i = shardIdx k
      · subst hi
        simp only [Function.update_same]
        unfold shardRemove
        exact ((List.filter_sublist _).map Prod.fst).nodup (hinv.1 _)
      · simp only [Function.update_noteq hi]
        exact hinv.1 i
    · intro i p hp
      by_cases hi : i = shardIdx k
      · subst hi
        simp only [Function.update_same] at hp
        unfold shardRemove at hp
        exact hinv.2.1 _ p (List.mem_of_mem_filter hp)
      · simp only [Function.update_noteq hi] at hp
        exact hinv.2.1 i p hp
    · dsimp only
      rw [listSum_update]
      rw [← hinv.2.2]
      have : ((shardRemove (db.shards (shardIdx k)) k).length : ℤ) =
          ((db.shards (shardIdx k)).length : ℤ) - 1 := by
        omega
      rw [this]
      ring
    · dsimp only
      rw [hif]
  · rw [if_neg hc]
    have hif : (if k ∈ keysOf db then (1 : ℤ) else 0) = 0 := by
      rw [if_neg (fun hmem => hc (hpresence.mp hmem))]
    refine ⟨hinv, ?_⟩
    rw [hif]
    ring

/-- The empty store satisfies the invariant. -/
theorem dbinv_empty : DbInv create_memory_db := by
  refine ⟨fun i => by simp [create_memory_db], ?_, ?_⟩
  · intro i p hp
    simp [create_memory_db] at hp
  · simp [create_memory_db]

/-- Any operation sequence from the empty store preserves the invariant. -/
theorem dbinv_runOps (ops : List DbOp) : DbInv (runOps ops) := by
  unfold runOps
  have hstep : ∀ (db : StatusDb), DbInv db →
      DbInv (ops.foldl applyOp db) := by
    induction ops with
    | nil => intro db h; exact h
    | cons op ops ih =>
      intro db h
      apply ih
      rcases op with ⟨k, it⟩ | ⟨k, it⟩ | k
      · exact (dbinv_add db h k it).1
      · rw [applyOp, set_eq_add]
        exact (dbinv_add db h k it).1
      · exact (dbinv_del db h k).1
  exact hstep create_memory_db dbinv_empty

/-- C7: after any sequence of `add`/`set`/`del` operations, `length()`
equals the number of distinct keys present across all shards; a further
`add` or `set` increments the length only when the key is absent, and a
further `del` decrements it only when the key is present. -/
theorem statusdb_length_invariant (ops : List DbOp) :
    (runOps ops).length = (distinctCount (runOps ops) : ℤ) ∧
    (∀ (k : String) (it : Item),
      ((runOps ops).add k it).length =
        (runOps ops).length + (if k ∈ keysOf (runOps ops) then 0 else 1)) ∧
    (∀ (k : String) (it : Item),
      ((runOps ops).set k it).length =
        (runOps ops).length + (if k ∈ keysOf (runOps ops) then 0 else 1)) ∧
    (∀ k : String,
      ((runOps ops).del k).length =
        (runOps ops).length - (if k ∈ keysOf (runOps ops) then 1 else 0)) := by
  have hinv := dbinv_runOps ops
  refine ⟨dbinv_length_eq _ hinv, ?_, ?_, ?_⟩
  · intro k it
    exact (dbinv_add _ hinv k it).2
  · intro k it
    rw [set_eq_add]
    exact (dbinv_add _ hinv k it).2
  · intro k
    exact (dbinv_del _ hinv k).2

/-- Digit characters produced by `digitChar` pass the ASCII digit test. -/
theorem isDigitC_digitChar (d : ℕ) : isDigitC (digitChar d) = true := by
  rcases d with _|_|_|_|_|_|_|_|_|_|d <;> rfl

/-- Every character of a decimal digit string is an ASCII digit. -/
theorem digitsOf_digits (n : ℕ) : ∀ c ∈ digitsOf n, isDigitC c = true := by
  intro c hc
  unfold digitsOf at hc
  split_ifs at hc
  · rw [List.mem_singleton] at hc
    rw [hc]
    rfl
  · rw [List.mem_reverse] at hc
    rcases List.mem_map.mp hc with ⟨d, _, rfl⟩
    exact isDigitC_digitChar d

/-- Decimal digit strings are never empty. -/
theorem digitsOf_ne_nil (n : ℕ) : digitsOf n ≠ [] := by
  unfold digitsOf
  split_ifs with h
  · simp
  · simp [Nat.digits_ne_nil_iff_ne_zero, h]

/-- Numeric value of one digit character. -/
theorem toNat_digitChar (d : ℕ) (hd : d < 10) : (digitChar d).toNat - 48 = d := by
  interval_cases d <;> rfl

/-- Big-endian digit accumulation computes the represented number. -/
theorem natVal_aux (ds : List ℕ) (hds : ∀ d ∈ ds, d < 10) (a0 : ℕ) :
    ((ds.map digitChar).reverse).foldl (fun a c => 10 * a + (c.toNat - 48)) a0 =
      a0 * 10 ^ ds.length + Nat.ofDigits 10 ds := by
  induction ds generalizing a0 with
  | nil => simp [Nat.ofDigits]
  | cons d ds ih =>
    rw [List.map_cons, List.reverse_cons, List.foldl_append]
    rw [ih (fun x hx => hds x (List.mem_cons_of_mem _ hx))]
    simp only [List.foldl_cons, List.foldl_nil]
    rw [toNat_digitChar d (hds d (List.mem_cons_self _ _))]
    rw [Nat.ofDigits_cons, List.length_cons]
    ring

/-- `natVal` inverts `digitsOf`. -/
theorem natVal_digitsOf (n : ℕ) : natVal (digitsOf n) = n := by
  unfold digitsOf natVal
  split_ifs with h
  · rw [h]
    rfl
  · rw [natVal_aux (Nat.digits 10 n)
      (fun d hd => Nat.digits_lt_base (by norm_num) hd) 0]
    rw [Nat.ofDigits_digits]
    ring

/-- ASCII digits are not whitespace. -/
theorem not_ws_of_digit (c : Char) (h : isDigitC c = true) : isWsC c = false := by
  unfold isDigitC at h
  unfold isWsC
  rw [decide_eq_true_eq] at h
  rw [decide_eq_false_iff_not]
  omega

/-- Trimming is the identity on whitespace-free strings. -/
theorem trimChars_eq_self (l : List Char) (h : ∀ c ∈ l, isWsC c = false) :
    trimChars l = l := by
  unfold trimChars
  have h1 : l.dropWhile isWsC = l := by
    cases l with
    | nil => rfl
    | cons a t =>
      rw [List.dropWhile_cons, if_neg]
      simp [h a (List.mem_cons_self a t)]
  rw [h1]
  have h2 : l.reverse.dropWhile isWsC = l.reverse := by
    cases hr : l.reverse with
    | nil => rfl
    | cons a t =>
      have ha : a ∈ l := by
        rw [← List.mem_reverse, hr]
        exact List.mem_cons_self a t
      rw [List.dropWhile_cons, if_neg]
      simp [h a ha]
  rw [h2, List.reverse_reverse]

/-- ASCII lowercasing fixes characters outside `A`–`Z`. -/
theorem lowerChar_eq_self (c : Char) (h : c.toNat < 65 ∨ 90 < c.toNat) :
    lowerChar c = c := by
  unfold lowerChar
  rw [if_neg]
  omega

/-- Lowercasing is the identity on a digit string followed by `"pps"`. -/
theorem map_lowerChar_digits_pps (d : List Char)
    (hd : ∀ c ∈ d, isDigitC c = true) :
    (d ++ "pps".data).map lowerChar = d ++ "pps".data := by
  have hfix : ∀ c ∈ d ++ "pps".data, lowerChar c = c := by
    intro c hc
    rcases List.mem_append.mp hc with h | h
    · have := hd c h
      unfold isDigitC at this
      rw [decide_eq_true_eq] at this
      exact lowerChar_eq_self c (by omega)
    · have : c = 'p' ∨ c = 'p' ∨ c = 's' := by simpa using h
      rcases this with rfl | rfl | rfl <;> rfl
  calc (d ++ "pps".data).map lowerChar = (d ++ "pps".data).map id :=
        List.map_congr_left hfix
    _ = d ++ "pps".data := List.map_id _

/-- Digit strings followed by `"pps"` match only the `"pps"` suffix family. -/
theorem endsWith_digits_pps (d : List Char)
    (hd : ∀ c ∈ d, isDigitC c = true) (hne : d ≠ []) :
    endsWith (d ++ "pps".data) ("kbps".data) = false ∧
    endsWith (d ++ "pps".data) ("mbps".data) = false ∧
    endsWith (d ++ "pps".data) ("gbps".data) = false ∧
    endsWith (d ++ "pps".data) ("bps".data) = false ∧
    endsWith (d ++ "pps".data) ("kpps".data) = false ∧
    endsWith (d ++ "pps".data) ("mpps".data) = false ∧
    endsWith (d ++ "pps".data) ("gpps".data) = false ∧
    endsWith (d ++ "pps".data) ("pps".data) = true := by
  rcases List.eq_nil_or_concat d with rfl | ⟨ds, c, rfl⟩
  · exact absurd rfl hne
  have hc : isDigitC c = true := hd c (by
    rw [List.concat_eq_append]
    exact List.mem_append.mpr (Or.inr (List.mem_singleton.mpr rfl)))
  have hcval : 48 ≤ c.toNat ∧ c.toNat ≤ 57 := by
    have := hc
    unfold isDigitC at this
    rwa [decide_eq_true_eq] at this
  rw [List.concat_eq_append]
  have hlen : ((ds ++ [c]) ++ "pps".data).length = ds.length + 4 := by
    simp [List.length_append]
  have e4 : ds.length + 4 - 4 = ds.length := by omega
  have e3 : ds.length + 4 - 3 = (ds ++ [c]).length := by
    simp [List.length_append]
  have h4 : ((ds ++ [c]) ++ "pps".data).drop ds.length = c :: "pps".data := by
    rw [List.append_assoc, List.drop_left]
    rfl
  have h3 : ((ds ++ [c]) ++ "pps".data).drop (ds ++ [c]).length = "pps".data :=
    List.drop_left _ _
  have hck : c ≠ 'k' := by
    intro h
    rw [h] at hcval
    simp at hcval
  have hcm : c ≠ 'm' := by
    intro h
    rw [h] at hcval
    simp at hcval
  have hcg : c ≠ 'g' := by
    intro h
    rw [h] at hcval
    simp at hcval
  refine ⟨?_, ?_, ?_, ?_, ?_, ?_, ?_, ?_⟩
  · unfold endsWith
    rw [show ("kbps".data : List Char).length = 4 from rfl, hlen, e4, h4,
      show ("pps".data : List Char) = ['p', 'p', 's'] from rfl,
      show ("kbps".data : List Char) = ['k', 'b', 'p', 's'] from rfl]
    simp
  · unfold endsWith
    rw [show ("mbps".data : List Char).length = 4 from rfl, hlen, e4, h4,
      show ("pps".data : List Char) = ['p', 'p', 's'] from rfl,
      show ("mbps".data : List Char) = ['m', 'b', 'p', 's'] from rfl]
    simp
  · unfold endsWith
    rw [show ("gbps".data : List Char).length = 4 from rfl, hlen, e4, h4,
      show ("pps".data : List Char) = ['p', 'p', 's'] from rfl,
      show ("gbps".data : List Char) = ['g', 'b', 'p', 's'] from rfl]
    simp
  · unfold endsWith
    rw [show ("bps".data : List Char).length = 3 from rfl, hlen, e3, h3,
      show ("pps".data : List Char) = ['p', 'p', 's'] from rfl,
      show ("bps".data : List Char) = ['b', 'p', 's'] from rfl]
    simp
  · unfold endsWith
    rw [show ("kpps".data : List Char).length = 4 from rfl, hlen, e4, h4,
      show ("pps".data : List Char) = ['p', 'p', 's'] from rfl,
      show ("kpps".data : List Char) = ['k', 'p', 'p', 's'] from rfl]
    simp [hck]
  · unfold endsWith
    rw [show ("mpps".data : List Char).length = 4 from rfl, hlen, e4, h4,
      show ("pps".data : List Char) = ['p', 'p', 's'] from rfl,
      show ("mpps".data : List Char) = ['m', 'p', 'p', 's'] from rfl]
    simp [hcm]
  · unfold endsWith
    rw [show ("gpps".data : List Char).length = 4 from rfl, hlen, e4, h4,
      show ("pps".data : List Char) = ['p', 'p', 's'] from rfl,
      show ("gpps".data : List Char) = ['g', 'p', 'p', 's'] from rfl]
    simp [hcg]
  · unfold endsWith
    rw [show ("pps".data : List Char).length = 3 from rfl, hlen, e3, h3]
    simp

/-- Parsing a non-empty pure digit string yields its exact integer value over
denominator one. -/
theorem parseF64_digits (d : List Char) (hd : ∀ c ∈ d, isDigitC c = true)
    (hne : d ≠ []) :
    parseF64 d = some { num := (natVal d : ℤ), den := 1 } := by
  obtain ⟨c, t, rfl⟩ : ∃ c t, d = c :: t := by
    cases d with
    | nil => exact absurd rfl hne
    | cons c t => exact ⟨c, t, rfl⟩
  have hc := hd c (List.mem_cons_self c t)
  have hcval : 48 ≤ c.toNat ∧ c.toNat ≤ 57 := by
    unfold isDigitC at hc
    rwa [decide_eq_true_eq] at hc
  have hcm : ¬ c = '-' := by
    intro h
    rw [h] at hcval
    simp at hcval
  have hcp : ¬ c = '+' := by
    intro h
    rw [h] at hcval
    simp at hcval
  have hstrip : stripSign (c :: t) = (false, c :: t) := by
    show (if c = '-' then (true, t)
      else if c = '+' then (false, t) else (false, c :: t)) = (false, c :: t)
    rw [if_neg hcm, if_neg hcp]
  unfold parseF64
  rw [hstrip]
  dsimp only
  rw [List.takeWhile_eq_self_iff.mpr hd, List.dropWhile_eq_nil_iff.mpr hd]
  simp

/-- The `parse_num` closure accepts a positive pure digit string and returns
its exact value. -/
theorem parse_num_digits (d : List Char) (hd : ∀ c ∈ d, isDigitC c = true)
    (hne : d ≠ []) (hpos : 0 < natVal d) :
    parse_num d = Except.ok { num := (natVal d : ℤ), den := 1 } := by
  unfold parse_num
  rw [trimChars_eq_self d (fun c hc => not_ws_of_digit c (hd c hc))]
  rw [parseF64_digits d hd hne]
  dsimp only
  rw [if_neg (by omega)]

/-- C5 counterexample: `band2rate("0pps")` is an error, not `Ok(0)` — the
numeric parser inside `band2rate` rejects values `≤ 0` on every suffix
branch, so the claimed identity `band2rate("<n>pps") = Ok(n)` fails at
`n = 0`. -/
theorem band2rate_zero_pps_cex :
    band2rate (digitsOf 0 ++ "pps".data) = Except.error () ∧
    ¬ (band2rate (digitsOf 0 ++ "pps".data) = Except.ok ((0 : ℕ) : ℤ)) := by
  constructor
  · decide
  · decide

/-- C5 (amended): for every positive integer `n`, `band2rate` applied to the
decimal digits of `n` followed by `"pps"` returns `Ok(n)` (at `n = 0` the
`parse_num` positivity check makes it an error instead); `band2rate` of the
empty string is an error; and `band2rate` of any string that matches none of
the eight explicit suffix families, does not end in `k`/`m`/`g`, and is not a
pure digit string, is an error. -/
theorem band2rate_props :
    (∀ n : ℕ, 1 ≤ n →
      band2rate (digitsOf n ++ "pps".data) = Except.ok ((n : ℕ) : ℤ)) ∧
    band2rate [] = Except.error () ∧
    (∀ l : List Char,
      endsWith ((trimChars l).map lowerChar) ("kbps".data) = false →
      endsWith ((trimChars l).map lowerChar) ("mbps".data) = false →
      endsWith ((trimChars l).map lowerChar) ("gbps".data) = false →
      endsWith ((trimChars l).map lowerChar) ("bps".data) = false →
      endsWith ((trimChars l).map lowerChar) ("kpps".data) = false →
      endsWith ((trimChars l).map lowerChar) ("mpps".data) = false →
      endsWith ((trimChars l).map lowerChar) ("gpps".data) = false →
      endsWith ((trimChars l).map lowerChar) ("pps".data) = false →
      ((trimChars l).map lowerChar).getLast? ≠ some 'g' →
      ((trimChars l).map lowerChar).getLast? ≠ some 'm' →
      ((trimChars l).map lowerChar).getLast? ≠ some 'k' →
      ((trimChars l).map lowerChar).all isDigitC = false →
      band2rate l = Except.error ()) := by
  refine ⟨?_, rfl, ?_⟩
  · intro n hn
    have hdig := digitsOf_digits n
    have hne := digitsOf_ne_nil n
    have hnows : ∀ c ∈ digitsOf n ++ "pps".data, isWsC c = false := by
      intro c hc
      rcases List.mem_append.mp hc with h | h
      · exact not_ws_of_digit c (hdig c h)
      · have : c = 'p' ∨ c = 'p' ∨ c = 's' := by simpa using h
        rcases this with rfl | rfl | rfl <;> rfl
    have hsuf := endsWith_digits_pps (digitsOf n) hdig hne
    have htake : (digitsOf n ++ "pps".data).take
        ((digitsOf n ++ "pps".data).length - 3) = digitsOf n := by
      have : (digitsOf n ++ "pps".data).length - 3 = (digitsOf n).length := by
        simp [List.length_append]
      rw [this, List.take_left]
    have hpn := parse_num_digits (digitsOf n) hdig hne
      (by rw [natVal_digitsOf]; omega)
    rw [natVal_digitsOf] at hpn
    have hbne : (digitsOf n ++ "pps".data).isEmpty = false := by
      simp [hne]
    unfold band2rate
    rw [trimChars_eq_self _ hnows, map_lowerChar_digits_pps _ hdig, hbne]
    simp only [Bool.false_eq_true, if_false]
    unfold band2rateLower
    rw [hsuf.1, hsuf.2.1, hsuf.2.2.1, hsuf.2.2.2.1, hsuf.2.2.2.2.1,
      hsuf.2.2.2.2.2.1, hsuf.2.2.2.2.2.2.1, hsuf.2.2.2.2.2.2.2]
    simp only [Bool.false_eq_true, if_false, if_true]
    rw [htake, hpn]
    dsimp only
    unfold scaleDiv
    simp [Int.fdiv_one]
  · intro l h1 h2 h3 h4 h5 h6 h7 h8 hg hm hk hdig
    by_cases hbe : l.isEmpty = true
    · unfold band2rate
      rw [if_pos hbe]
    · unfold band2rate
      rw [if_neg hbe]
      by_cases hse : (trimChars l).isEmpty = true
      · rw [if_pos hse]
      · rw [if_neg hse]
        unfold band2rateLower
        rw [h1, h2, h3, h4, h5, h6, h7, h8]
        simp only [Bool.false_eq_true, if_false]
        unfold legacySuffixCase
        cases hlast : ((trimChars l).map lowerChar).getLast? with
        | none =>
          dsimp only
          unfold pureNumberCase
          rw [hdig]
          simp
        | some c =>
          have hcg : ¬ c = 'g' := fun h => hg (h ▸ hlast)
          have hcm : ¬ c = 'm' := fun h => hm (h ▸ hlast)
          have hck : ¬ c = 'k' := fun h => hk (h ▸ hlast)
          dsimp only
          rw [if_neg (by simp [hcg, hcm, hck])]
          unfold pureNumberCase
          rw [hdig]
          simp

/-- C5 witness: concrete instances — `band2rate("3pps") = Ok 3`, the empty
string errors, and `"xyz"` (no suffix family, not a number) errors. -/
theorem band2rate_props_witness :
    band2rate (digitsOf 3 ++ "pps".data) = Except.ok ((3 : ℕ) : ℤ) ∧
    band2rate [] = Except.error () ∧
    band2rate ("xyz".data) = Except.error () := by
  refine ⟨band2rate_props.1 3 (by decide), band2rate_props.2.1, ?_⟩
  exact band2rate_props.2.2 ("xyz".data) (by decide) (by decide) (by decide)
    (by decide) (by decide) (by decide) (by decide) (by decide) (by decide)
    (by decide) (by decide) (by decide)

end Rusub

